import Mathlib

/-!
Shallow embedding of the lex4oat lexer generator (src/node.rs, src/nfa.rs,
src/dfa.rs) and verification of its specified properties.

Modelling conventions:
* Rust `String` edge labels become `List Char`; the reserved epsilon label
  `"<λ>"` is the literal character list `['<', 'λ', '>']`.
* The process-wide id counter is threaded explicitly (`Gr.counter`); a fresh
  id is `counter + 1`, matching `increment_global_counter`.
* `HashMap<usize, Node>` becomes an association list `List (Nat × Node)` with
  first-match lookup (`alookup`); keys are unique in every reachable state.
* `BTreeSet<usize>` becomes its canonical representation, a strictly sorted
  `List Nat` (likewise `BTreeSet<char>`); iterating the list is exactly
  `BTreeSet` iteration in ascending order, and `sinsert` is `insert`. All
  sets the algorithm builds start from `[]` or a singleton and grow through
  `sinsert`, so they stay canonical, and list equality is set equality.
* Rust `panic!`/`unwrap` failures are modelled by `Option`: `none` is a panic.
* `while` loops are transcribed as structurally recursive functions over an
  explicit fuel counter so that everything is executable; the top-level entry
  points pass a fuel value that is proved sufficient (the termination claims),
  so the fuel-exhaustion branch is unreachable from them.
-/

namespace Lex4Oat

/-- Edge between automaton nodes: destination id (`tgt`, the Rust field `to`,
which is a reserved word in Lean) and label (`path`), the Rust `String` label
rendered as a character list. -/
structure Edge where
  tgt : Nat
  path : List Char
deriving DecidableEq, Repr

/-- Automaton node: name (token label when terminal), ordered outgoing edges,
unique id, terminal flag. -/
structure Node where
  name : String
  outgoing_edges : List Edge
  id : Nat
  terminal : Bool
deriving DecidableEq, Repr

/-- A graph store together with the current value of the global id counter. -/
structure Gr where
  nodes : List (Nat × Node)
  counter : Nat
deriving DecidableEq, Repr

/-- The reserved epsilon label `"<λ>"`. -/
def epsLabel : List Char := ['<', 'λ', '>']

/-- First-match association-list lookup, the model of `HashMap::get`. -/
def alookup {α β : Type} [DecidableEq α] : List (α × β) → α → Option β
  | [], _ => none
  | p :: ps, a => if p.1 = a then some p.2 else alookup ps a

/-- Pointwise update of the entry stored under a key, the model of
`HashMap::get_mut` followed by a mutation. -/
def aupdate {α β : Type} [DecidableEq α] : List (α × β) → α → (β → β) → List (α × β)
  | [], _, _ => []
  | p :: ps, a, f => if p.1 = a then (p.1, f p.2) :: aupdate ps a f else p :: aupdate ps a f

/-- `get_mut(..).unwrap()` followed by a mutation: fails (panics) when the key
is absent. -/
def aupdateOpt {α β : Type} [DecidableEq α] (l : List (α × β)) (a : α) (f : β → β) :
    Option (List (α × β)) :=
  match alookup l a with
  | some _ => some (aupdate l a f)
  | none => none

/-- `Node::add_outgoing_edge`: push an edge at the end of the edge list. -/
def Node.pushEdge (nd : Node) (tgt : Nat) (label : List Char) : Node :=
  ⟨nd.name, nd.outgoing_edges ++ [⟨tgt, label⟩], nd.id, nd.terminal⟩

/-- `Node::set_terminal`. -/
def Node.setTerminalB (nd : Node) (b : Bool) : Node :=
  ⟨nd.name, nd.outgoing_edges, nd.id, b⟩

/-- `Node::set_name`. -/
def Node.setNameS (nd : Node) (s : String) : Node :=
  ⟨s, nd.outgoing_edges, nd.id, nd.terminal⟩

/-- `Node::new` plus insertion into the store: allocates the next global id. -/
def mkNode (st : Gr) (name : String) (terminal : Bool) : Nat × Gr :=
  (st.counter + 1,
   ⟨(st.counter + 1, ⟨name, [], st.counter + 1, terminal⟩) :: st.nodes, st.counter + 1⟩)

/-- Character range `((start as u8 + 1) as char) ..= endc` from
`Nfa::parse_regex_set`. -/
def rangeChars (startc endc : Char) : List Char :=
  (List.range' (startc.toNat % 256 + 1) (endc.toNat + 1 - (startc.toNat % 256 + 1))).map
    Char.ofNat

/-- The character-collecting loop of `Nfa::parse_regex_set`: handles escapes,
ranges and plain characters; `none` models the `unwrap` panic on a dangling
escape or range at the end of the set. -/
def parseSetChars : List Char → Option Char → List Char → Option (List Char)
  | [], _, acc => some acc
  | '\\' :: rest, _, acc =>
    match rest with
    | [] => none
    | n :: rest' =>
      if n = 's' then parseSetChars rest' (some n) (acc ++ [' ', '\t', '\n', '\r'])
      else parseSetChars rest' (some n) (acc ++ [n])
  | '-' :: rest, some startc, acc =>
    match rest with
    | [] => none
    | e :: rest' => parseSetChars rest' (some e) (acc ++ rangeChars startc e)
  | '-' :: rest, none, acc => parseSetChars rest none acc
  | c :: rest, _, acc => parseSetChars rest (some c) (acc ++ [c])

/-- Printable ASCII, `32u8..=126u8`. -/
def printableAscii : List Char := (List.range' 32 95).map Char.ofNat

/-- `Nfa::parse_regex_set`: compile a bracket expression into a single edge
from `start_node_id` to a fresh node, handling negation with `^`. -/
def parse_regex_set (st : Gr) (regex : List Char) (name : String) (start_node_id : Nat) :
    Option (Nat × Gr) :=
  let new_node_id := st.counter + 1
  let neg_cs : Bool × List Char :=
    match regex with
    | '^' :: rest => (true, rest)
    | _ => (false, regex)
  match parseSetChars neg_cs.2 none [] with
  | none => none
  | some set_chars =>
    let edge_name := if neg_cs.1 then printableAscii.filter (fun ch => !set_chars.contains ch)
      else set_chars
    match aupdateOpt st.nodes start_node_id (fun nd => nd.pushEdge new_node_id edge_name) with
    | none => none
    | some nodes2 =>
      some (new_node_id,
        ⟨(new_node_id, ⟨name, [], new_node_id, false⟩) :: nodes2, new_node_id⟩)

/-- Wire an epsilon edge from every listed node to `mid` (the alternation-merge
loop at the end of `Nfa::parse_regex`). -/
def addEpsEdges : Gr → List Nat → Nat → Option Gr
  | st, [], _ => some st
  | st, a :: rest, mid =>
    match aupdateOpt st.nodes a (fun nd => nd.pushEdge mid epsLabel) with
    | none => none
    | some n1 => addEpsEdges ⟨n1, st.counter⟩ rest mid

/-- One iteration of the character loop of `Nfa::parse_regex`, the body of the
`while let Some(c) = chars.next()` statement; `recur` continues the loop on the
remaining characters. `none` models the source's `unwrap` panics (dangling
escape, dangling repetition operator). The parenthesis branch inlines
`Nfa::parse_regex_group`. -/
def prStep (recur : Gr → List Char → String → Nat → List Nat → List Nat → Nat → Bool →
    Option (Gr × Nat)) (st : Gr) (c : Char) (cs : List Char) (name : String)
    (branch_start : Nat) (stack alternatives : List Nat) (end_node_id : Nat)
    (mark_ending : Bool) : Option (Gr × Nat) :=
        if c = '|' then
          match stack with
          | [] => none
          | current_alt :: rest =>
            recur st cs name branch_start (branch_start :: rest)
              (alternatives ++ [current_alt]) end_node_id mark_ending
        else if c = '\\' then
          match cs with
          | [] => none
          | next :: cs' =>
            if next = 's' then
              let p := mkNode st name false
              match stack with
              | [] => none
              | top :: _ =>
                match aupdateOpt p.2.nodes top (fun nd =>
                    (((nd.pushEdge p.1 [' ']).pushEdge p.1 ['\t']).pushEdge p.1
                      ['\n']).pushEdge p.1 ['\r']) with
                | none => none
                | some nodes2 =>
                  recur ⟨nodes2, p.2.counter⟩ cs' name branch_start (p.1 :: stack)
                    alternatives end_node_id mark_ending
            else
              let p := mkNode st (String.singleton next) false
              match stack with
              | [] => none
              | top :: _ =>
                match aupdateOpt p.2.nodes top (fun nd => nd.pushEdge p.1 [next]) with
                | none => none
                | some nodes2 =>
                  if cs' = [] ∧ mark_ending = true then
                    recur
                      ⟨aupdate nodes2 p.1 (fun nd => (nd.setTerminalB true).setNameS name),
                        p.2.counter⟩
                      cs' name branch_start (p.1 :: stack) alternatives p.1 mark_ending
                  else
                    recur ⟨nodes2, p.2.counter⟩ cs' name branch_start (p.1 :: stack)
                      alternatives end_node_id mark_ending
        else if c = '[' then
          let char_set := cs.takeWhile (fun x => x ≠ ']')
          let rest := (cs.dropWhile (fun x => x ≠ ']')).drop 1
          match stack with
          | [] => none
          | top :: _ =>
            match parse_regex_set st char_set name top with
            | none => none
            | some pr =>
              let st2 : Gr := if rest = [] ∧ mark_ending = true then
                  ⟨aupdate pr.2.nodes pr.1 (fun nd => nd.setTerminalB true), pr.2.counter⟩
                else pr.2
              recur st2 rest name branch_start (pr.1 :: stack) alternatives
                end_node_id mark_ending
        else if c = '(' then
          let group_expr := cs.takeWhile (fun x => x ≠ ')')
          let rest := (cs.dropWhile (fun x => x ≠ ')')).drop 1
          match stack with
          | [] => none
          | top :: _ =>
            let p := mkNode st "(" false
            match aupdateOpt p.2.nodes top (fun nd => nd.pushEdge p.1 epsLabel) with
            | none => none
            | some nodes2 =>
              match recur ⟨nodes2, p.2.counter⟩ group_expr name p.1 [p.1] [] p.1
                  false with
              | none => none
              | some gr =>
                let st2 : Gr := if rest = [] ∧ mark_ending = true then
                    ⟨aupdate gr.1.nodes gr.2 (fun nd => nd.setTerminalB true), gr.1.counter⟩
                  else gr.1
                recur st2 rest name branch_start (gr.2 :: stack) alternatives
                  end_node_id mark_ending
        else if c = '*' then
          match stack with
          | [] => none
          | repeat_node_id :: stack1 =>
            match stack1 with
            | [] => none
            | prev_node_id :: _ =>
              let p := mkNode st name false
              match aupdateOpt p.2.nodes prev_node_id (fun nd => nd.pushEdge p.1 epsLabel) with
              | none => none
              | some n1 =>
                match aupdateOpt n1 repeat_node_id (fun nd => nd.pushEdge p.1 epsLabel) with
                | none => none
                | some n2 =>
                  match aupdateOpt n2 p.1 (fun nd => nd.pushEdge prev_node_id epsLabel) with
                  | none => none
                  | some n3 =>
                    let st3 : Gr := if cs = [] ∧ mark_ending = true then
                        ⟨aupdate n3 p.1 (fun nd => nd.setTerminalB true), p.2.counter⟩
                      else ⟨n3, p.2.counter⟩
                    recur st3 cs name branch_start (p.1 :: stack1) alternatives
                      end_node_id mark_ending
        else if c = '+' then
          match stack with
          | [] => none
          | repeat_node_id :: stack1 =>
            match stack1 with
            | [] => none
            | prev_node_id :: _ =>
              match aupdateOpt st.nodes repeat_node_id (fun nd =>
                  nd.pushEdge prev_node_id epsLabel) with
              | none => none
              | some n1 =>
                let st3 : Gr := if cs = [] ∧ mark_ending = true then
                    ⟨aupdate n1 repeat_node_id (fun nd => nd.setTerminalB true), st.counter⟩
                  else ⟨n1, st.counter⟩
                recur st3 cs name branch_start (repeat_node_id :: stack1) alternatives
                  end_node_id mark_ending
        else if c = '?' then
          match stack with
          | [] => none
          | optional_id :: stack1 =>
            match stack1 with
            | [] => none
            | prev_id :: _ =>
              let p := mkNode st "?" false
              match aupdateOpt p.2.nodes prev_id (fun nd => nd.pushEdge p.1 epsLabel) with
              | none => none
              | some n1 =>
                match aupdateOpt n1 optional_id (fun nd => nd.pushEdge p.1 epsLabel) with
                | none => none
                | some n2 =>
                  recur ⟨n2, p.2.counter⟩ cs name branch_start (p.1 :: stack1)
                    alternatives end_node_id mark_ending
        else
          let p := mkNode st (String.singleton c) false
          match stack with
          | [] => none
          | top :: _ =>
            match aupdateOpt p.2.nodes top (fun nd => nd.pushEdge p.1 [c]) with
            | none => none
            | some nodes2 =>
              if cs = [] ∧ mark_ending = true then
                recur
                  ⟨aupdate nodes2 p.1 (fun nd => (nd.setTerminalB true).setNameS name),
                    p.2.counter⟩
                  cs name branch_start (p.1 :: stack) alternatives p.1 mark_ending
              else
                recur ⟨nodes2, p.2.counter⟩ cs name branch_start (p.1 :: stack)
                  alternatives end_node_id mark_ending

/-- The character loop of `Nfa::parse_regex`, fuelled for executability. The
stack grows at its head (Rust pushes/pops at the end of a `Vec`); on exhausted
input the alternation merge from the end of `Nfa::parse_regex` runs. -/
def prLoopF : Nat → Gr → List Char → String → Nat → List Nat → List Nat → Nat → Bool →
    Option (Gr × Nat)
  | _, st, [], name, _, stack, alternatives, end_node_id, _ =>
      match alternatives with
      | [] => some (st, end_node_id)
      | _ :: _ =>
        match stack with
        | [] => none
        | top :: _ =>
          let p := mkNode st name false
          match addEpsEdges p.2 (alternatives ++ [top]) p.1 with
          | none => none
          | some st2 => some (st2, p.1)
  | 0, _, _ :: _, _, _, _, _, _, _ => none
  | fuel' + 1, st, c :: cs, name, branch_start, stack, alternatives, end_node_id,
      mark_ending =>
      prStep (prLoopF fuel') st c cs name branch_start stack alternatives end_node_id
        mark_ending

/-- `Nfa::parse_regex`. The pattern length is sufficient fuel because every
consumed construct strictly shrinks the remaining text, including the
recursive group parse on a strict substring. -/
def parse_regex (st : Gr) (regex : List Char) (name : String) (start_node_id : Nat)
    (mark_ending : Bool) : Option (Gr × Nat) :=
  prLoopF regex.length st regex name start_node_id [start_node_id] [] start_node_id
    mark_ending

/-- The rule loop of `Nfa::construct`: rules named `";"` are skipped, every
other rule is compiled against the shared root with `mark_ending = true`
(the returned exit id is discarded, as in the source). -/
def constructKeywords (root : Nat) : List (String × String) → Gr → Option Gr
  | [], st => some st
  | (keyword, name) :: rest, st =>
    if name = ";" then constructKeywords root rest st
    else
      match parse_regex st keyword.data name root true with
      | none => none
      | some pr => constructKeywords root rest pr.1

/-- `Nfa::new`: a store holding only the root node, named `"NFA"`, id 1. -/
def nfaNew : Gr := ⟨[(1, ⟨"NFA", [], 1, false⟩)], 1⟩

/-- `Nfa::construct` on a fresh NFA (root id 1). -/
def Nfa.construct (keywords : List (String × String)) : Option Gr :=
  constructKeywords 1 keywords nfaNew

/-- Ordered insert without duplicates: the model of `BTreeSet::insert` over
the canonical (strictly sorted) list representation of a `BTreeSet`. -/
def sinsert {α : Type} [LinearOrder α] (x : α) : List α → List α
  | [] => [x]
  | y :: ys => if x < y then x :: y :: ys else if x = y then y :: ys else y :: sinsert x ys

/-- State of `Dfa::construct_dfa`: the `dfa_states` map from NFA-state sets
(canonical sorted lists) to DFA node ids, the `unmarked` queue (`pop_front` at
the head, `push_back` at the end), the DFA node store, the id counter and the
DFA root id. -/
structure DSt where
  dfa_states : List (List Nat × Nat)
  unmarked : List (List Nat)
  nodes : List (Nat × Node)
  counter : Nat
  root_id : Nat
deriving DecidableEq, Repr

/-- Outgoing edges of a stored node; absent nodes contribute nothing, matching
the `if let Some(nfa_node)` guards in `dfa.rs`. -/
def edgesOf (nodes : List (Nat × Node)) (id : Nat) : List Edge :=
  match alookup nodes id with
  | some nd => nd.outgoing_edges
  | none => []

/-- All edge-target ids occurring anywhere in a store; a finite universe that
bounds everything the closure and move computations can produce. -/
def allTargets (nodes : List (Nat × Node)) : List Nat :=
  nodes.foldr (fun p acc => p.2.outgoing_edges.foldr (fun e a => sinsert e.tgt a) acc) []

/-- The inner edge loop of `Dfa::epsilon_closure`: follow `"<λ>"` edges,
inserting unseen targets into the closure and pushing them on the stack. -/
def epsProcessEdges : List Edge → List Nat → List Nat → List Nat × List Nat
  | [], closure, stack => (closure, stack)
  | e :: es, closure, stack =>
    if e.path = epsLabel ∧ e.tgt ∉ closure then
      epsProcessEdges es (sinsert e.tgt closure) (e.tgt :: stack)
    else
      epsProcessEdges es closure stack

/-- The work-stack loop of `Dfa::epsilon_closure`, fuelled. -/
def epsLoopF (nfaNodes : List (Nat × Node)) : Nat → List Nat → List Nat →
    Option (List Nat)
  | _, closure, [] => some closure
  | 0, _, _ :: _ => none
  | fuel + 1, closure, id :: rest =>
    let p := epsProcessEdges (edgesOf nfaNodes id) closure rest
    epsLoopF nfaNodes fuel p.1 p.2

/-- Fuel that always suffices for `epsLoopF`: twice the number of reachable
targets not yet in the closure plus the initial stack height. -/
def epsFuel (nfaNodes : List (Nat × Node)) (s : List Nat) : Nat :=
  2 * ((allTargets nfaNodes).filter (fun a => a ∉ s)).length + s.length

/-- `Dfa::epsilon_closure`. The initial stack is the set iterated in
ascending order and collected into a `Vec` popped from the back, hence the
reversal; the fallback branch is unreachable (`epsFuel` is sufficient). -/
def epsilon_closure (nfaNodes : List (Nat × Node)) (state_set : List Nat) : List Nat :=
  match epsLoopF nfaNodes (epsFuel nfaNodes state_set) state_set state_set.reverse with
  | some r => r
  | none => state_set

/-- `Dfa::move_nfa`: all targets of edges whose label contains the character
(note that this includes the characters of the epsilon label itself, a quirk
preserved from the source). -/
def move_nfa (nfaNodes : List (Nat × Node)) (state_set : List Nat) (ch : Char) :
    List Nat :=
  state_set.foldl (fun result state_id =>
    (edgesOf nfaNodes state_id).foldl
      (fun r e => if e.path.contains ch ∧ e.tgt ∉ r then sinsert e.tgt r else r) result) []

/-- `Dfa::extract_symbols`: every character of every non-epsilon label. -/
def extract_symbols (nfaNodes : List (Nat × Node)) (state_set : List Nat) : List Char :=
  state_set.foldl (fun result state_id =>
    (edgesOf nfaNodes state_id).foldl
      (fun r e => if e.path = epsLabel then r else e.path.foldl (fun a ch => sinsert ch a) r)
      result) []

/-- `Dfa::create_dfa_state`: build a DFA node for a set of NFA states.
`terminal_names[0]` is guarded by `is_terminal` in the source, so `headD` with
an arbitrary default is faithful. Returns (new id, new store, new counter). -/
def create_dfa_state (nfaNodes : List (Nat × Node)) (state_set : List Nat)
    (nodes : List (Nat × Node)) (counter : Nat) : Nat × List (Nat × Node) × Nat :=
  let terminal_names : List String := state_set.filterMap (fun id =>
    match alookup nfaNodes id with
    | some nd => if nd.terminal then some nd.name else none
    | none => none)
  let is_terminal : Bool := state_set.any (fun id =>
    match alookup nfaNodes id with
    | some nd => nd.terminal
    | none => false)
  let name := if is_terminal then terminal_names.headD "<>" else "<>"
  (counter + 1, (counter + 1, ⟨name, [], counter + 1, is_terminal⟩) :: nodes, counter + 1)

/-- The node allocated by `create_dfa_state`, spelled out for reasoning about
the projections of its result. -/
def cdsNode (nfaNodes : List (Nat × Node)) (state_set : List Nat) (counter : Nat) : Node :=
  ⟨if (state_set.any fun id => match alookup nfaNodes id with
      | some nd => nd.terminal
      | none => false) = true
    then (state_set.filterMap fun id => match alookup nfaNodes id with
      | some nd => if nd.terminal = true then some nd.name else none
      | none => none).headD "<>"
    else "<>",
   [], counter + 1,
   state_set.any fun id => match alookup nfaNodes id with
     | some nd => nd.terminal
     | none => false⟩

/-- The merge-or-create edge step of `Dfa::construct_dfa`: extend the label of
the first edge to `tgt`, or append a fresh single-character edge. -/
def mergeEdgeList : List Edge → Nat → Char → List Edge
  | [], tgt, ch => [⟨tgt, [ch]⟩]
  | e :: es, tgt, ch =>
    if e.tgt = tgt then ⟨e.tgt, e.path ++ [ch]⟩ :: es else e :: mergeEdgeList es tgt ch

/-- The per-symbol body of the worklist loop of `Dfa::construct_dfa`. -/
def processSymbol (nfaNodes : List (Nat × Node)) (current_set : List Nat)
    (current_dfa_id : Nat) (st : DSt) (ch : Char) : DSt :=
  let move_set := move_nfa nfaNodes current_set ch
  let closure := epsilon_closure nfaNodes move_set
  if closure = [] then st
  else
    match alookup st.dfa_states closure with
    | some next_id =>
      ⟨st.dfa_states, st.unmarked,
        aupdate st.nodes current_dfa_id (fun nd =>
          ⟨nd.name, mergeEdgeList nd.outgoing_edges next_id ch, nd.id, nd.terminal⟩),
        st.counter, st.root_id⟩
    | none =>
      let c := create_dfa_state nfaNodes closure st.nodes st.counter
      ⟨(closure, c.1) :: st.dfa_states, st.unmarked ++ [closure],
        aupdate c.2.1 current_dfa_id (fun nd =>
          ⟨nd.name, mergeEdgeList nd.outgoing_edges c.1 ch, nd.id, nd.terminal⟩),
        c.2.2, st.root_id⟩

/-- The worklist loop of `Dfa::construct_dfa`, fuelled. For the popped set the
stored DFA id is read back (`dfa_states[&current_set]`, always present), then
every available symbol is processed in ascending order. -/
def dfaLoopF (nfaNodes : List (Nat × Node)) : Nat → DSt → Option DSt
  | fuel, st =>
    match st.unmarked with
    | [] => some st
    | current_set :: rest =>
      match fuel with
      | 0 => none
      | fuel' + 1 =>
        let current_dfa_id := (alookup st.dfa_states current_set).getD 0
        let syms := extract_symbols nfaNodes current_set
        dfaLoopF nfaNodes fuel'
          (syms.foldl (processSymbol nfaNodes current_set current_dfa_id)
            ⟨st.dfa_states, rest, st.nodes, st.counter, st.root_id⟩)

/-- Progress measure of the worklist loop: canonical subsets of the target
universe not yet claimed as `dfa_states` keys (counted twice) plus the queue
height. -/
def dfaMeasure (nfaNodes : List (Nat × Node)) (st : DSt) : Nat :=
  2 * ((allTargets nfaNodes).sublists.filter
        (fun s => alookup st.dfa_states s = none)).length + st.unmarked.length

/-- Concrete fuel that dominates `dfaMeasure` for every reachable state. -/
def dfaFuel (nfaNodes : List (Nat × Node)) : Nat :=
  2 * 2 ^ (allTargets nfaNodes).length + 1

/-- The pre-loop part of `Dfa::construct_dfa` combined with `Dfa::new`: the
`"DFA"` root node, then the DFA state for the epsilon closure of the NFA
root, registered and enqueued. -/
def dfaStart (nfaNodes : List (Nat × Node)) (nfaRoot : Nat) (counter : Nat) : DSt :=
  let dfa_root_id := counter + 1
  let start_closure := epsilon_closure nfaNodes [nfaRoot]
  let c := create_dfa_state nfaNodes start_closure
    [(dfa_root_id, ⟨"DFA", [], dfa_root_id, false⟩)] (counter + 1)
  ⟨[(start_closure, c.1)], [start_closure], c.2.1, c.2.2, c.1⟩

/-- `Dfa::construct_dfa`: run the worklist to completion. The fallback is
unreachable because `dfaFuel` bounds `dfaMeasure` of the start state. -/
def Dfa.construct (nfaNodes : List (Nat × Node)) (nfaRoot : Nat) (counter : Nat) : DSt :=
  let st0 := dfaStart nfaNodes nfaRoot counter
  (dfaLoopF nfaNodes (dfaFuel nfaNodes) st0).getD st0

/-- The inner walk of `Dfa::lex`: follow matching edges from position `j`,
recording `(j + 1, name)` whenever the entered state is terminal. The outer
`Option` layer models the `unwrap` panics on missing node ids; `some last`
is a normal exit returning the most recent accepting checkpoint. -/
def lexInner (dfaNodes : List (Nat × Node)) : List Char → Nat → Nat →
    Option (Nat × String) → Option (Option (Nat × String))
  | [], _, _, last => some last
  | c :: rest, j, current_state_id, last =>
    match alookup dfaNodes current_state_id with
    | none => none
    | some nd =>
      match nd.outgoing_edges.find? (fun e => e.path.contains c) with
      | none => some last
      | some e =>
        match alookup dfaNodes e.tgt with
        | none => none
        | some nd2 =>
          lexInner dfaNodes rest (j + 1) e.tgt
            (if nd2.terminal then some (j + 1, nd2.name) else last)

/-- Rust `str::trim` on a character list: drop whitespace from both ends
(ASCII whitespace; the inputs scanned here contain no exotic Unicode
whitespace, so this matches `char::is_whitespace`). -/
def trimChars (l : List Char) : List Char :=
  ((l.dropWhile Char.isWhitespace).reverse.dropWhile Char.isWhitespace).reverse

/-- The outer loop of `Dfa::lex`, fuelled: either emit the checkpointed token
(trimmed, dropped when its name is `";"`) and jump to the checkpoint end, or
skip a single character. -/
def lexOuterF (dfaNodes : List (Nat × Node)) (root_id : Nat) (chars : List Char) :
    Nat → Nat → List (String × String) → Option (List (String × String))
  | 0, index, tokens => if index < chars.length then none else some tokens
  | fuel' + 1, index, tokens =>
    if index < chars.length then
      match lexInner dfaNodes (chars.drop index) index root_id none with
      | none => none
      | some (some p) =>
        let token := String.mk (trimChars ((chars.drop index).take (p.1 - index)))
        lexOuterF dfaNodes root_id chars fuel' p.1
          (if p.2 ≠ ";" then tokens ++ [(p.2, token)] else tokens)
      | some none => lexOuterF dfaNodes root_id chars fuel' (index + 1) tokens
    else some tokens

/-- `Dfa::lex` over a character list; the input length is sufficient fuel
because the cursor strictly advances in every iteration. -/
def Dfa.lex (dfaNodes : List (Nat × Node)) (root_id : Nat) (input : List Char) :
    Option (List (String × String)) :=
  lexOuterF dfaNodes root_id input input.length 0 []

/-- The whole pipeline of `Lex4Oat`: build the NFA from the rules, convert it
to a DFA, scan the input. -/
def oat_lex (keywords : List (String × String)) (input : String) :
    Option (List (String × String)) :=
  match Nfa.construct keywords with
  | none => none
  | some nfaSt =>
    let d := Dfa.construct nfaSt.nodes 1 nfaSt.counter
    Dfa.lex d.nodes d.root_id input.data

/-- Reachability from a state set along `"<λ>"`-labelled edges only. -/
inductive EpsReach (nfaNodes : List (Nat × Node)) (s : List Nat) : Nat → Prop where
  | base (x : Nat) (hx : x ∈ s) : EpsReach nfaNodes s x
  | step (x : Nat) (e : Edge) (hx : EpsReach nfaNodes s x) (he : e ∈ edgesOf nfaNodes x)
      (hl : e.path = epsLabel) : EpsReach nfaNodes s e.tgt

/-- Pairwise disjointness of the labels of an edge list: no character belongs
to two distinct outgoing edges. -/
def edgesDisjoint (edges : List Edge) : Prop :=
  List.Pairwise (fun e1 e2 => ∀ c : Char, c ∈ e1.path → c ∉ e2.path) edges

/-- The NFA store the pipeline builds for the longest-match example rules
`("ab", "ID")`, `("abc", "KEYWORD")`. -/
def c1nfaNodes : List (Nat × Node) :=
  [(6, ⟨"KEYWORD", [], 6, true⟩),
   (5, ⟨"b", [⟨6, ['c']⟩], 5, false⟩),
   (4, ⟨"a", [⟨5, ['b']⟩], 4, false⟩),
   (3, ⟨"ID", [], 3, true⟩),
   (2, ⟨"a", [⟨3, ['b']⟩], 2, false⟩),
   (1, ⟨"NFA", [⟨2, ['a']⟩, ⟨4, ['a']⟩], 1, false⟩)]

/-- The DFA store built from `c1nfaNodes`. -/
def c1dfaNodes : List (Nat × Node) :=
  [(11, ⟨"KEYWORD", [], 11, true⟩),
   (10, ⟨"ID", [⟨11, ['c']⟩], 10, true⟩),
   (9, ⟨"<>", [⟨10, ['b']⟩], 9, false⟩),
   (8, ⟨"<>", [⟨9, ['a']⟩], 8, false⟩),
   (7, ⟨"DFA", [], 7, false⟩)]

/-- The whole DFA construction state for the longest-match example. -/
def c1dfaSt : DSt := ⟨[([6], 11), ([3, 5], 10), ([2, 4], 9), ([1], 8)], [], c1dfaNodes, 11, 8⟩

/-- Well-formedness of a DFA store for scanning: the root and every edge
target resolve to stored nodes (so `Dfa::lex` never hits a failing `unwrap`). -/
def WfDfa (dfaNodes : List (Nat × Node)) (root_id : Nat) : Prop :=
  (∃ nd, alookup dfaNodes root_id = some nd) ∧
    ∀ p ∈ dfaNodes, ∀ e ∈ (p.2 : Node).outgoing_edges, ∃ nd, alookup dfaNodes e.tgt = some nd

/-- Invariant of the worklist loop of `Dfa::construct_dfa`, holding between
iterations: the state map is injective in both directions with canonical
sorted keys, queued states have no edges yet, all stored nodes have pairwise
disjoint edge labels, ids are bounded by the counter, exactly one node exists
per registered state (plus the initial `"DFA"` root), and the store is closed
under edge targets. -/
structure DInv (nfaNodes : List (Nat × Node)) (st : DSt) : Prop where
  keysNodup : (st.dfa_states.map Prod.fst).Nodup
  valsNodup : (st.dfa_states.map Prod.snd).Nodup
  keysSorted : ∀ p ∈ st.dfa_states, (p : List Nat × Nat).1.Sorted (· < ·)
  queueNodup : st.unmarked.Nodup
  queueKeys : ∀ s ∈ st.unmarked, ∃ id, alookup st.dfa_states s = some id
  queueClean : ∀ s ∈ st.unmarked, ∀ id, alookup st.dfa_states s = some id →
    ∀ nd, alookup st.nodes id = some nd → (nd : Node).outgoing_edges = []
  disjoint : ∀ id nd, alookup st.nodes id = some nd →
    edgesDisjoint (nd : Node).outgoing_edges
  statesExist : ∀ p ∈ st.dfa_states, ∃ nd, alookup st.nodes (p : List Nat × Nat).2 = some nd
  nodesNodup : (st.nodes.map Prod.fst).Nodup
  counterBound : ∀ p ∈ st.nodes, (p : Nat × Node).1 ≤ st.counter
  countEq : st.nodes.length = st.dfa_states.length + 1
  targetsExist : ∀ p ∈ st.nodes, ∀ e ∈ (p : Nat × Node).2.outgoing_edges,
    ∃ nd, alookup st.nodes (e : Edge).tgt = some nd
  rootExists : ∃ nd, alookup st.nodes st.root_id = some nd

/-- Invariant inside the per-symbol fold of one worklist iteration for the
popped node `cur`: like `DInv` but the popped node accumulates edges whose
label characters all come from the already-processed symbols `done`. -/
structure FInv (nfaNodes : List (Nat × Node)) (cur : Nat) (done : List Char)
    (st : DSt) : Prop where
  keysNodup : (st.dfa_states.map Prod.fst).Nodup
  valsNodup : (st.dfa_states.map Prod.snd).Nodup
  keysSorted : ∀ p ∈ st.dfa_states, (p : List Nat × Nat).1.Sorted (· < ·)
  queueNodup : st.unmarked.Nodup
  queueKeys : ∀ s ∈ st.unmarked, ∃ id, alookup st.dfa_states s = some id
  queueCleanF : ∀ s ∈ st.unmarked, ∀ id, alookup st.dfa_states s = some id →
    id ≠ cur ∧ ∀ nd, alookup st.nodes id = some nd → (nd : Node).outgoing_edges = []
  disjointOther : ∀ id nd, id ≠ cur → alookup st.nodes id = some nd →
    edgesDisjoint (nd : Node).outgoing_edges
  currentOk : ∀ nd, alookup st.nodes cur = some nd →
    edgesDisjoint (nd : Node).outgoing_edges ∧
      ∀ e ∈ (nd : Node).outgoing_edges, ∀ c ∈ (e : Edge).path, c ∈ done
  statesExist : ∀ p ∈ st.dfa_states, ∃ nd, alookup st.nodes (p : List Nat × Nat).2 = some nd
  nodesNodup : (st.nodes.map Prod.fst).Nodup
  counterBound : ∀ p ∈ st.nodes, (p : Nat × Node).1 ≤ st.counter
  countEq : st.nodes.length = st.dfa_states.length + 1
  targetsExist : ∀ p ∈ st.nodes, ∀ e ∈ (p : Nat × Node).2.outgoing_edges,
    ∃ nd, alookup st.nodes (e : Edge).tgt = some nd
  rootExists : ∃ nd, alookup st.nodes st.root_id = some nd
  curBound : cur ≤ st.counter

section AssocLemmas

variable {α β : Type} [DecidableEq α]

theorem alookup_aupdate_self (l : List (α × β)) (a : α) (f : β → β) :
    alookup (aupdate l a f) a = (alookup l a).map f := by
  induction l with
  | nil => rfl
  | cons p ps ih =>
    by_cases h : p.1 = a <;> simp [alookup, aupdate, h, ih]

theorem alookup_aupdate_ne (l : List (α × β)) (a b : α) (f : β → β) (h : b ≠ a) :
    alookup (aupdate l a f) b = alookup l b := by
  have h' : a ≠ b := fun hh => h hh.symm
  induction l with
  | nil => rfl
  | cons p ps ih =>
    by_cases h1 : p.1 = a
    · have h2 : ¬ p.1 = b := by rw [h1]; exact h'
      simp [alookup, aupdate, h1, h2, h', h, ih]
    · by_cases h2 : p.1 = b <;> simp [alookup, aupdate, h1, h2, h', h, ih]

theorem aupdate_keys (l : List (α × β)) (a : α) (f : β → β) :
    (aupdate l a f).map Prod.fst = l.map Prod.fst := by
  induction l with
  | nil => rfl
  | cons p ps ih =>
    by_cases h : p.1 = a <;> simp [aupdate, h, ih]

theorem aupdate_length (l : List (α × β)) (a : α) (f : β → β) :
    (aupdate l a f).length = l.length := by
  induction l with
  | nil => rfl
  | cons p ps ih =>
    by_cases h : p.1 = a <;> simp [aupdate, h, ih]

theorem alookup_mem {l : List (α × β)} {a : α} {b : β} (h : alookup l a = some b) :
    (a, b) ∈ l := by
  induction l with
  | nil => simp [alookup] at h
  | cons p ps ih =>
    rw [show alookup (p :: ps) a = if p.1 = a then some p.2 else alookup ps a from rfl] at h
    split at h
    · rename_i h1
      injection h with h2
      rw [← h1, ← h2]
      exact List.mem_cons_self p ps
    · exact List.mem_cons_of_mem p (ih h)

theorem alookup_eq_none {l : List (α × β)} {a : α} :
    alookup l a = none ↔ a ∉ l.map Prod.fst := by
  induction l with
  | nil => simp [alookup]
  | cons p ps ih =>
    rw [show alookup (p :: ps) a = if p.1 = a then some p.2 else alookup ps a from rfl]
    by_cases h1 : p.1 = a
    · simp [h1]
    · have h1' : ¬ a = p.1 := fun hh => h1 hh.symm
      simp [h1, h1', ih]

theorem alookup_isSome_of_mem {l : List (α × β)} {a : α} {b : β} (h : (a, b) ∈ l) :
    ∃ c, alookup l a = some c := by
  induction l with
  | nil => simp at h
  | cons p ps ih =>
    rw [show alookup (p :: ps) a = if p.1 = a then some p.2 else alookup ps a from rfl]
    by_cases h1 : p.1 = a
    · exact ⟨p.2, by simp [h1]⟩
    · rcases List.mem_cons.mp h with h2 | h2
      · exact absurd (by rw [← h2]) h1
      · simpa [h1] using ih h2

end AssocLemmas

section SetLemmas

variable {α : Type} [LinearOrder α]

theorem mem_sinsert (x a : α) (l : List α) : a ∈ sinsert x l ↔ a = x ∨ a ∈ l := by
  induction l with
  | nil => simp [sinsert]
  | cons y ys ih =>
    rw [sinsert]
    rcases lt_trichotomy x y with h1 | h1 | h1
    · rw [if_pos h1]
      simp only [List.mem_cons]
    · subst h1
      rw [if_neg (lt_irrefl x), if_pos rfl]
      simp only [List.mem_cons]
      tauto
    · rw [if_neg (lt_asymm h1), if_neg (ne_of_gt h1)]
      simp only [List.mem_cons, ih]
      tauto

theorem sorted_sinsert (x : α) (l : List α) (h : l.Sorted (· < ·)) :
    (sinsert x l).Sorted (· < ·) := by
  induction l with
  | nil => simp [sinsert]
  | cons y ys ih =>
    rw [sinsert]
    rcases List.sorted_cons.mp h with ⟨hy, hys⟩
    by_cases h1 : x < y
    · rw [if_pos h1]
      refine List.sorted_cons.mpr ⟨?_, h⟩
      intro b hb
      rcases List.mem_cons.mp hb with hb | hb
      · rw [hb]; exact h1
      · exact lt_trans h1 (hy b hb)
    · by_cases h2 : x = y
      · rw [if_neg h1, if_pos h2]
        exact h
      · have h3 : y < x := by
          rcases lt_trichotomy x y with hh | hh | hh
          · exact absurd hh h1
          · exact absurd hh h2
          · exact hh
        rw [if_neg h1, if_neg h2]
        refine List.sorted_cons.mpr ⟨?_, ih hys⟩
        intro b hb
        rcases (mem_sinsert x b ys).mp hb with hb | hb
        · rw [hb]; exact h3
        · exact hy b hb

theorem length_filter_le_mono {β : Type} (U : List β) (p q : β → Bool)
    (himp : ∀ a, q a = true → p a = true) :
    (U.filter q).length ≤ (U.filter p).length := by
  induction U with
  | nil => simp
  | cons u us ih =>
    by_cases hq : q u = true
    · simp [List.filter_cons, hq, himp u hq]
      exact ih
    · have hq' : q u = false := by
        cases hqq : q u
        · rfl
        · exact absurd hqq hq
      by_cases hp : p u = true
      · simp [List.filter_cons, hq', hp]
        exact Nat.le_succ_of_le ih
      · have hp' : p u = false := by
          cases hpp : p u
          · rfl
          · exact absurd hpp hp
        simp [List.filter_cons, hq', hp']
        exact ih

theorem length_filter_lt_mono {β : Type} (U : List β) (p q : β → Bool)
    (himp : ∀ a, q a = true → p a = true) (t : β) (ht : t ∈ U) (hpt : p t = true)
    (hqt : q t = false) :
    (U.filter q).length < (U.filter p).length := by
  induction U with
  | nil => simp at ht
  | cons u us ih =>
    by_cases hut : u = t
    · subst hut
      simp [List.filter_cons, hqt, hpt]
      exact Nat.lt_succ_of_le (length_filter_le_mono us p q himp)
    · have ht' : t ∈ us := by
        rcases List.mem_cons.mp ht with h | h
        · exact absurd h.symm hut
        · exact h
      by_cases hq : q u = true
      · simp [List.filter_cons, hq, himp u hq]
        exact ih ht'
      · have hq' : q u = false := by
          cases hqq : q u
          · rfl
          · exact absurd hqq hq
        by_cases hp : p u = true
        · simp [List.filter_cons, hq', hp]
          exact Nat.lt_succ_of_le (Nat.le_of_lt (ih ht'))
        · have hp' : p u = false := by
            cases hpp : p u
            · rfl
            · exact absurd hpp hp
          simp [List.filter_cons, hq', hp']
          exact ih ht'

end SetLemmas

section EpsLemmas

theorem mem_foldr_sinsert (edges : List Edge) (acc : List Nat) (a : Nat) :
    a ∈ edges.foldr (fun e l => sinsert e.tgt l) acc ↔
      (∃ e ∈ edges, (e : Edge).tgt = a) ∨ a ∈ acc := by
  induction edges with
  | nil => simp
  | cons e es ih =>
    simp only [List.foldr_cons, mem_sinsert, ih, List.mem_cons]
    constructor
    · rintro (h | h)
      · exact Or.inl ⟨e, Or.inl rfl, h.symm⟩
      · rcases h with ⟨e', he', ht⟩ | h
        · exact Or.inl ⟨e', Or.inr he', ht⟩
        · exact Or.inr h
    · rintro (⟨e', he', ht⟩ | h)
      · rcases he' with he' | he'
        · rw [he'] at ht
          exact Or.inl ht.symm
        · exact Or.inr (Or.inl ⟨e', he', ht⟩)
      · exact Or.inr (Or.inr h)

theorem mem_allTargets (nodes : List (Nat × Node)) (a : Nat) :
    a ∈ allTargets nodes ↔
      ∃ p ∈ nodes, ∃ e ∈ (p : Nat × Node).2.outgoing_edges, (e : Edge).tgt = a := by
  induction nodes with
  | nil => simp [allTargets]
  | cons p ps ih =>
    rw [allTargets, List.foldr_cons]
    rw [show (ps.foldr (fun q acc => q.2.outgoing_edges.foldr (fun e l => sinsert e.tgt l) acc)
        [] : List Nat) = allTargets ps from rfl]
    rw [mem_foldr_sinsert, ih]
    simp only [List.mem_cons]
    constructor
    · rintro (⟨e, he, ht⟩ | ⟨q, hq, e, he, ht⟩)
      · exact ⟨p, Or.inl rfl, e, he, ht⟩
      · exact ⟨q, Or.inr hq, e, he, ht⟩
    · rintro ⟨q, hq | hq, e, he, ht⟩
      · subst hq
        exact Or.inl ⟨e, he, ht⟩
      · exact Or.inr ⟨q, hq, e, he, ht⟩

theorem tgt_mem_allTargets {nodes : List (Nat × Node)} {id : Nat} {e : Edge}
    (he : e ∈ edgesOf nodes id) : e.tgt ∈ allTargets nodes := by
  rw [edgesOf] at he
  rcases h : alookup nodes id with _ | nd
  · rw [h] at he
    simp at he
  · rw [h] at he
    exact (mem_allTargets nodes e.tgt).mpr ⟨(id, nd), alookup_mem h, e, he, rfl⟩

theorem epsProcessEdges_closure_sub (edges : List Edge) (closure stack : List Nat) :
    ∀ a ∈ closure, a ∈ (epsProcessEdges edges closure stack).1 := by
  induction edges generalizing closure stack with
  | nil => simp [epsProcessEdges]
  | cons e es ih =>
    intro a ha
    rw [epsProcessEdges]
    split
    · exact ih _ _ a ((mem_sinsert _ _ _).mpr (Or.inr ha))
    · exact ih _ _ a ha

theorem epsProcessEdges_closure_src (edges : List Edge) (closure stack : List Nat) :
    ∀ a ∈ (epsProcessEdges edges closure stack).1,
      a ∈ closure ∨ ∃ e ∈ edges, (e : Edge).path = epsLabel ∧ (e : Edge).tgt = a := by
  induction edges generalizing closure stack with
  | nil => intro a ha; exact Or.inl ha
  | cons e es ih =>
    intro a ha
    rw [epsProcessEdges] at ha
    split at ha
    · rename_i hc
      rcases ih _ _ a ha with h | ⟨e', he', hp, ht⟩
      · rcases (mem_sinsert _ _ _).mp h with h | h
        · exact Or.inr ⟨e, List.mem_cons_self e es, hc.1, h.symm⟩
        · exact Or.inl h
      · exact Or.inr ⟨e', List.mem_cons_of_mem e he', hp, ht⟩
    · rcases ih _ _ a ha with h | ⟨e', he', hp, ht⟩
      · exact Or.inl h
      · exact Or.inr ⟨e', List.mem_cons_of_mem e he', hp, ht⟩

theorem epsProcessEdges_stack_sub (edges : List Edge) (closure stack : List Nat) :
    ∀ a ∈ stack, a ∈ (epsProcessEdges edges closure stack).2 := by
  induction edges generalizing closure stack with
  | nil => simp [epsProcessEdges]
  | cons e es ih =>
    intro a ha
    rw [epsProcessEdges]
    split
    · exact ih _ _ a (List.mem_cons_of_mem _ ha)
    · exact ih _ _ a ha

theorem epsProcessEdges_stack_src (edges : List Edge) (closure stack : List Nat) :
    ∀ a ∈ (epsProcessEdges edges closure stack).2,
      a ∈ stack ∨ a ∈ (epsProcessEdges edges closure stack).1 := by
  induction edges generalizing closure stack with
  | nil => intro a ha; exact Or.inl ha
  | cons e es ih =>
    intro a ha
    rw [epsProcessEdges] at ha ⊢
    split at ha
    · rename_i hc
      split
      · rcases ih _ _ a ha with h | h
        · rcases List.mem_cons.mp h with h | h
          · subst h
            exact Or.inr (epsProcessEdges_closure_sub es _ _ _
              ((mem_sinsert _ _ _).mpr (Or.inl rfl)))
          · exact Or.inl h
        · exact Or.inr h
      · rename_i hc2
        exact absurd hc hc2
    · rename_i hc
      split
      · rename_i hc2
        exact absurd hc2 hc
      · rcases ih _ _ a ha with h | h
        · exact Or.inl h
        · exact Or.inr h

theorem epsProcessEdges_closes (edges : List Edge) (closure stack : List Nat) :
    ∀ e ∈ edges, (e : Edge).path = epsLabel →
      (e : Edge).tgt ∈ (epsProcessEdges edges closure stack).1 := by
  induction edges generalizing closure stack with
  | nil => simp
  | cons e es ih =>
    intro e' he' hp
    rcases List.mem_cons.mp he' with he' | he'
    · subst he'
      rw [epsProcessEdges]
      by_cases hc : e'.tgt ∈ closure
      · split
        · exact epsProcessEdges_closure_sub es _ _ _ ((mem_sinsert _ _ _).mpr (Or.inr hc))
        · exact epsProcessEdges_closure_sub es _ _ _ hc
      · rw [if_pos ⟨hp, hc⟩]
        exact epsProcessEdges_closure_sub es _ _ _ ((mem_sinsert _ _ _).mpr (Or.inl rfl))
    · rw [epsProcessEdges]
      split
      · exact ih _ _ e' he' hp
      · exact ih _ _ e' he' hp

theorem epsProcessEdges_new_in_stack (edges : List Edge) (closure stack : List Nat) :
    ∀ a ∈ (epsProcessEdges edges closure stack).1,
      a ∈ closure ∨ a ∈ (epsProcessEdges edges closure stack).2 := by
  induction edges generalizing closure stack with
  | nil => intro a ha; exact Or.inl ha
  | cons e es ih =>
    intro a ha
    rw [epsProcessEdges] at ha ⊢
    split at ha
    · rename_i hc
      rw [if_pos hc]
      rcases ih _ _ a ha with h | h
      · rcases (mem_sinsert _ _ _).mp h with h | h
        · subst h
          exact Or.inr (epsProcessEdges_stack_sub es _ _ _ (List.mem_cons_self _ _))
        · exact Or.inl h
      · exact Or.inr h
    · rename_i hc
      rw [if_neg hc]
      exact ih _ _ a ha

theorem epsProcessEdges_noop (edges : List Edge) (closure stack : List Nat)
    (h : ∀ e ∈ edges, (e : Edge).path = epsLabel → (e : Edge).tgt ∈ closure) :
    epsProcessEdges edges closure stack = (closure, stack) := by
  induction edges with
  | nil => rfl
  | cons e es ih =>
    rw [epsProcessEdges]
    have h1 : ¬ (e.path = epsLabel ∧ e.tgt ∉ closure) := by
      rintro ⟨hp, hc⟩
      exact hc (h e (List.mem_cons_self e es) hp)
    rw [if_neg h1]
    exact ih fun e' he' => h e' (List.mem_cons_of_mem e he')

theorem epsProcessEdges_sorted (edges : List Edge) (closure stack : List Nat)
    (h : closure.Sorted (· < ·)) : (epsProcessEdges edges closure stack).1.Sorted (· < ·) := by
  induction edges generalizing closure stack with
  | nil => exact h
  | cons e es ih =>
    rw [epsProcessEdges]
    split
    · exact ih _ _ (sorted_sinsert _ _ h)
    · exact ih _ _ h

theorem epsProcessEdges_measure (edges : List Edge) (closure stack : List Nat)
    (U : List Nat) (hU : ∀ e ∈ edges, (e : Edge).tgt ∈ U) :
    2 * (U.filter (fun a => a ∉ (epsProcessEdges edges closure stack).1)).length +
      (epsProcessEdges edges closure stack).2.length ≤
    2 * (U.filter (fun a => a ∉ closure)).length + stack.length := by
  induction edges generalizing closure stack with
  | nil => exact le_refl _
  | cons e es ih =>
    rw [epsProcessEdges]
    split
    · rename_i hc
      have step := ih (sinsert e.tgt closure) (e.tgt :: stack)
        (fun e' he' => hU e' (List.mem_cons_of_mem e he'))
      have hlt : ((U.filter (fun a => a ∉ sinsert e.tgt closure)).length <
          (U.filter (fun a => a ∉ closure)).length) := by
        apply length_filter_lt_mono U (fun a => decide (a ∉ closure))
          (fun a => decide (a ∉ sinsert e.tgt closure))
        · intro a ha
          simp only [decide_eq_true_eq] at ha ⊢
          exact fun hh => ha ((mem_sinsert _ _ _).mpr (Or.inr hh))
        · exact hU e (List.mem_cons_self e es)
        · simp only [decide_eq_true_eq]
          exact hc.2
        · simp only [decide_eq_false_iff_not, not_not]
          exact (mem_sinsert _ _ _).mpr (Or.inl rfl)
      calc 2 * (U.filter (fun a =>
              a ∉ (epsProcessEdges es (sinsert e.tgt closure) (e.tgt :: stack)).1)).length +
            (epsProcessEdges es (sinsert e.tgt closure) (e.tgt :: stack)).2.length
          ≤ 2 * (U.filter (fun a => a ∉ sinsert e.tgt closure)).length +
              (e.tgt :: stack).length := step
        _ ≤ 2 * (U.filter (fun a => a ∉ closure)).length + stack.length := by
            simp only [List.length_cons]
            omega
    · exact ih closure stack (fun e' he' => hU e' (List.mem_cons_of_mem e he'))

theorem epsLoopF_sub (nfaNodes : List (Nat × Node)) :
    ∀ (fuel : Nat) (closure stack r : List Nat),
      epsLoopF nfaNodes fuel closure stack = some r → ∀ a ∈ closure, a ∈ r := by
  intro fuel
  induction fuel with
  | zero =>
    intro closure stack r h a ha
    cases stack with
    | nil =>
      simp only [epsLoopF, Option.some.injEq] at h
      rw [← h]; exact ha
    | cons id rest => simp [epsLoopF] at h
  | succ fuel ih =>
    intro closure stack r h a ha
    cases stack with
    | nil =>
      simp only [epsLoopF, Option.some.injEq] at h
      rw [← h]; exact ha
    | cons id rest =>
      rw [epsLoopF] at h
      exact ih _ _ r h a (epsProcessEdges_closure_sub _ _ _ a ha)

theorem epsLoopF_bound (nfaNodes : List (Nat × Node)) :
    ∀ (fuel : Nat) (closure stack r : List Nat),
      epsLoopF nfaNodes fuel closure stack = some r →
      ∀ a ∈ r, a ∈ closure ∨ a ∈ allTargets nfaNodes := by
  intro fuel
  induction fuel with
  | zero =>
    intro closure stack r h a ha
    cases stack with
    | nil =>
      simp only [epsLoopF, Option.some.injEq] at h
      rw [← h] at ha; exact Or.inl ha
    | cons id rest => simp [epsLoopF] at h
  | succ fuel ih =>
    intro closure stack r h a ha
    cases stack with
    | nil =>
      simp only [epsLoopF, Option.some.injEq] at h
      rw [← h] at ha; exact Or.inl ha
    | cons id rest =>
      rw [epsLoopF] at h
      rcases ih _ _ r h a ha with h1 | h1
      · rcases epsProcessEdges_closure_src _ _ _ a h1 with h2 | ⟨e, he, _, ht⟩
        · exact Or.inl h2
        · exact Or.inr (ht ▸ tgt_mem_allTargets he)
      · exact Or.inr h1

theorem epsLoopF_reach (nfaNodes : List (Nat × Node)) (s0 : List Nat) :
    ∀ (fuel : Nat) (closure stack r : List Nat),
      epsLoopF nfaNodes fuel closure stack = some r →
      (∀ a ∈ closure, EpsReach nfaNodes s0 a) → (∀ a ∈ stack, a ∈ closure) →
      ∀ a ∈ r, EpsReach nfaNodes s0 a := by
  intro fuel
  induction fuel with
  | zero =>
    intro closure stack r h hc _ a ha
    cases stack with
    | nil =>
      simp only [epsLoopF, Option.some.injEq] at h
      exact hc a (h ▸ ha)
    | cons id rest => simp [epsLoopF] at h
  | succ fuel ih =>
    intro closure stack r h hc hs a ha
    cases stack with
    | nil =>
      simp only [epsLoopF, Option.some.injEq] at h
      exact hc a (h ▸ ha)
    | cons id rest =>
      rw [epsLoopF] at h
      have hid : EpsReach nfaNodes s0 id := hc id (hs id (List.mem_cons_self id rest))
      have hc' : ∀ b ∈ (epsProcessEdges (edgesOf nfaNodes id) closure rest).1,
          EpsReach nfaNodes s0 b := by
        intro b hb
        rcases epsProcessEdges_closure_src _ _ _ b hb with h1 | ⟨e, he, hp, ht⟩
        · exact hc b h1
        · exact ht ▸ EpsReach.step id e hid he hp
      refine ih _ _ r h hc' ?_ a ha
      intro b hb
      rcases epsProcessEdges_stack_src _ _ _ b hb with h1 | h1
      · exact epsProcessEdges_closure_sub _ _ _ b (hs b (List.mem_cons_of_mem id h1))
      · exact h1

theorem epsLoopF_closed (nfaNodes : List (Nat × Node)) :
    ∀ (fuel : Nat) (closure stack r : List Nat),
      epsLoopF nfaNodes fuel closure stack = some r →
      (∀ a ∈ closure, a ∈ stack ∨
        (∀ e ∈ edgesOf nfaNodes a, (e : Edge).path = epsLabel → (e : Edge).tgt ∈ closure)) →
      ∀ a ∈ r, ∀ e ∈ edgesOf nfaNodes a, (e : Edge).path = epsLabel →
        (e : Edge).tgt ∈ r := by
  intro fuel
  induction fuel with
  | zero =>
    intro closure stack r h hinv a ha
    cases stack with
    | nil =>
      simp only [epsLoopF, Option.some.injEq] at h
      subst h
      intro e he hp
      rcases hinv a ha with h1 | h1
      · simp at h1
      · exact h1 e he hp
    | cons id rest => simp [epsLoopF] at h
  | succ fuel ih =>
    intro closure stack r h hinv a ha
    cases stack with
    | nil =>
      simp only [epsLoopF, Option.some.injEq] at h
      subst h
      intro e he hp
      rcases hinv a ha with h1 | h1
      · simp at h1
      · exact h1 e he hp
    | cons id rest =>
      rw [epsLoopF] at h
      refine ih _ _ r h ?_ a ha
      intro b hb
      rcases epsProcessEdges_closure_src _ _ _ b hb with h1 | ⟨e, he, hp, ht⟩
      · rcases hinv b h1 with h2 | h2
        · rcases List.mem_cons.mp h2 with h3 | h3
          · subst h3
            exact Or.inr fun e he hp => epsProcessEdges_closes _ _ _ e he hp
          · exact Or.inl (epsProcessEdges_stack_sub _ _ _ b h3)
        · exact Or.inr fun e he hp =>
            epsProcessEdges_closure_sub _ _ _ _ (h2 e he hp)
      · rcases epsProcessEdges_new_in_stack _ _ _ b hb with h2 | h2
        · rcases hinv b h2 with h3 | h3
          · rcases List.mem_cons.mp h3 with h4 | h4
            · subst h4
              exact Or.inr fun e he hp => epsProcessEdges_closes _ _ _ e he hp
            · exact Or.inl (epsProcessEdges_stack_sub _ _ _ b h4)
          · exact Or.inr fun e he hp =>
              epsProcessEdges_closure_sub _ _ _ _ (h3 e he hp)
        · exact Or.inl h2

theorem epsLoopF_sorted (nfaNodes : List (Nat × Node)) :
    ∀ (fuel : Nat) (closure stack r : List Nat),
      epsLoopF nfaNodes fuel closure stack = some r → closure.Sorted (· < ·) →
      r.Sorted (· < ·) := by
  intro fuel
  induction fuel with
  | zero =>
    intro closure stack r h hs
    cases stack with
    | nil =>
      simp only [epsLoopF, Option.some.injEq] at h
      exact h ▸ hs
    | cons id rest => simp [epsLoopF] at h
  | succ fuel ih =>
    intro closure stack r h hs
    cases stack with
    | nil =>
      simp only [epsLoopF, Option.some.injEq] at h
      exact h ▸ hs
    | cons id rest =>
      rw [epsLoopF] at h
      exact ih _ _ r h (epsProcessEdges_sorted _ _ _ hs)

theorem epsLoopF_isSome (nfaNodes : List (Nat × Node)) :
    ∀ (fuel : Nat) (closure stack : List Nat),
      2 * ((allTargets nfaNodes).filter (fun a => a ∉ closure)).length + stack.length ≤
        fuel →
      (epsLoopF nfaNodes fuel closure stack).isSome = true := by
  intro fuel
  induction fuel with
  | zero =>
    intro closure stack h
    cases stack with
    | nil => simp [epsLoopF]
    | cons id rest => simp at h
  | succ fuel ih =>
    intro closure stack h
    cases stack with
    | nil => simp [epsLoopF]
    | cons id rest =>
      rw [epsLoopF]
      apply ih
      have hm := epsProcessEdges_measure (edgesOf nfaNodes id) closure rest
        (allTargets nfaNodes) (fun e he => tgt_mem_allTargets he)
      simp only [List.length_cons] at h
      omega

theorem epsLoopF_fix (nfaNodes : List (Nat × Node)) :
    ∀ (fuel : Nat) (closure stack : List Nat),
      (∀ a ∈ closure, ∀ e ∈ edgesOf nfaNodes a, (e : Edge).path = epsLabel →
        (e : Edge).tgt ∈ closure) →
      (∀ a ∈ stack, a ∈ closure) → stack.length ≤ fuel →
      epsLoopF nfaNodes fuel closure stack = some closure := by
  intro fuel
  induction fuel with
  | zero =>
    intro closure stack hcl hs h
    cases stack with
    | nil => simp [epsLoopF]
    | cons id rest => simp at h
  | succ fuel ih =>
    intro closure stack hcl hs h
    cases stack with
    | nil => simp [epsLoopF]
    | cons id rest =>
      rw [epsLoopF]
      have hnoop : epsProcessEdges (edgesOf nfaNodes id) closure rest = (closure, rest) :=
        epsProcessEdges_noop _ _ _
          (fun e he hp => hcl id (hs id (List.mem_cons_self id rest)) e he hp)
      rw [hnoop]
      exact ih closure rest hcl (fun a ha => hs a (List.mem_cons_of_mem id ha))
        (by simpa using Nat.le_of_succ_le_succ (by simpa using h))

theorem epsilon_closure_eq_some (nfaNodes : List (Nat × Node)) (s : List Nat) :
    epsLoopF nfaNodes (epsFuel nfaNodes s) s s.reverse =
      some (epsilon_closure nfaNodes s) := by
  have h := epsLoopF_isSome nfaNodes (epsFuel nfaNodes s) s s.reverse
    (by rw [epsFuel, List.length_reverse])
  rcases hr : epsLoopF nfaNodes (epsFuel nfaNodes s) s s.reverse with _ | r
  · rw [hr] at h; simp at h
  · rw [epsilon_closure, hr]

theorem epsilon_closure_sub (nfaNodes : List (Nat × Node)) (s : List Nat) :
    ∀ a ∈ s, a ∈ epsilon_closure nfaNodes s :=
  epsLoopF_sub nfaNodes _ _ _ _ (epsilon_closure_eq_some nfaNodes s)

theorem epsilon_closure_reach (nfaNodes : List (Nat × Node)) (s : List Nat) :
    ∀ a ∈ epsilon_closure nfaNodes s, EpsReach nfaNodes s a :=
  epsLoopF_reach nfaNodes s _ _ _ _ (epsilon_closure_eq_some nfaNodes s)
    (fun a ha => EpsReach.base a ha) (fun _a ha => List.mem_reverse.mp ha)

theorem epsilon_closure_closed (nfaNodes : List (Nat × Node)) (s : List Nat) :
    ∀ a ∈ epsilon_closure nfaNodes s, ∀ e ∈ edgesOf nfaNodes a,
      (e : Edge).path = epsLabel → (e : Edge).tgt ∈ epsilon_closure nfaNodes s :=
  epsLoopF_closed nfaNodes _ _ _ _ (epsilon_closure_eq_some nfaNodes s)
    (fun _a ha => Or.inl (List.mem_reverse.mpr ha))

theorem epsilon_closure_bound (nfaNodes : List (Nat × Node)) (s : List Nat) :
    ∀ a ∈ epsilon_closure nfaNodes s, a ∈ s ∨ a ∈ allTargets nfaNodes :=
  epsLoopF_bound nfaNodes _ _ _ _ (epsilon_closure_eq_some nfaNodes s)

theorem epsilon_closure_sorted (nfaNodes : List (Nat × Node)) (s : List Nat)
    (hs : s.Sorted (· < ·)) : (epsilon_closure nfaNodes s).Sorted (· < ·) :=
  epsLoopF_sorted nfaNodes _ _ _ _ (epsilon_closure_eq_some nfaNodes s) hs

theorem epsilon_closure_idem (nfaNodes : List (Nat × Node)) (s : List Nat) :
    epsilon_closure nfaNodes (epsilon_closure nfaNodes s) = epsilon_closure nfaNodes s := by
  have hfix := epsLoopF_fix nfaNodes (epsFuel nfaNodes (epsilon_closure nfaNodes s))
    (epsilon_closure nfaNodes s) (epsilon_closure nfaNodes s).reverse
    (epsilon_closure_closed nfaNodes s) (fun a ha => List.mem_reverse.mp ha)
    (by rw [epsFuel, List.length_reverse]; omega)
  rw [epsilon_closure, hfix]

end EpsLemmas

section LexLemmas

theorem lexOuterF_else (dfaNodes : List (Nat × Node)) (root : Nat) (chars : List Char)
    (fuel index : Nat) (tokens : List (String × String)) (hidx : ¬ index < chars.length) :
    lexOuterF dfaNodes root chars fuel index tokens = some tokens := by
  cases fuel with
  | zero => rw [lexOuterF, if_neg hidx]
  | succ f => rw [lexOuterF, if_neg hidx]

theorem lexOuterF_zero (dfaNodes : List (Nat × Node)) (root : Nat) (chars : List Char)
    (index : Nat) (tokens : List (String × String)) (hidx : index < chars.length) :
    lexOuterF dfaNodes root chars 0 index tokens = none := by
  rw [lexOuterF, if_pos hidx]

theorem lexOuterF_succ (dfaNodes : List (Nat × Node)) (root : Nat) (chars : List Char)
    (fuel index : Nat) (tokens : List (String × String)) (hidx : index < chars.length) :
    lexOuterF dfaNodes root chars (fuel + 1) index tokens =
      match lexInner dfaNodes (chars.drop index) index root none with
      | none => none
      | some (some p) =>
        lexOuterF dfaNodes root chars fuel p.1
          (if p.2 ≠ ";" then tokens ++
              [(p.2, String.mk (trimChars ((chars.drop index).take (p.1 - index))))]
            else tokens)
      | some none => lexOuterF dfaNodes root chars fuel (index + 1) tokens := by
  rw [lexOuterF, if_pos hidx]

theorem lexInner_grow (dfaNodes : List (Nat × Node)) :
    ∀ (rest : List Char) (j cur : Nat) (last r : Option (Nat × String)),
      lexInner dfaNodes rest j cur last = some r →
      r = last ∨ ∃ e n, r = some (e, n) ∧ j < e := by
  intro rest
  induction rest with
  | nil =>
    intro j cur last r h
    simp only [lexInner, Option.some.injEq] at h
    exact Or.inl h.symm
  | cons c cs ih =>
    intro j cur last r h
    rw [lexInner] at h
    rcases h1 : alookup dfaNodes cur with _ | nd
    · simp only [h1] at h
      cases h
    · simp only [h1] at h
      rcases h2 : nd.outgoing_edges.find? (fun e => e.path.contains c) with _ | e
      · simp only [h2, Option.some.injEq] at h
        exact Or.inl h.symm
      · simp only [h2] at h
        rcases h3 : alookup dfaNodes e.tgt with _ | nd2
        · simp only [h3] at h
          cases h
        · simp only [h3] at h
          rcases ih (j + 1) e.tgt _ r h with h4 | ⟨e', n', h4, h5⟩
          · by_cases ht : nd2.terminal = true
            · rw [if_pos ht] at h4
              exact Or.inr ⟨j + 1, nd2.name, h4, Nat.lt_succ_self j⟩
            · rw [if_neg ht] at h4
              exact Or.inl h4
          · exact Or.inr ⟨e', n', h4, Nat.lt_of_succ_lt h5⟩

theorem lexInner_keep (dfaNodes : List (Nat × Node)) :
    ∀ (rest : List Char) (j cur e0 : Nat) (n0 : String) (r : Option (Nat × String)),
      e0 ≤ j + 1 → lexInner dfaNodes rest j cur (some (e0, n0)) = some r →
      ∃ e n, r = some (e, n) ∧ e0 ≤ e := by
  intro rest j cur e0 n0 r hle h
  rcases lexInner_grow dfaNodes rest j cur _ r h with h1 | ⟨e, n, h1, h2⟩
  · exact ⟨e0, n0, h1, le_refl e0⟩
  · exact ⟨e, n, h1, le_trans hle h2⟩

theorem lexInner_ne_none (dfaNodes : List (Nat × Node))
    (hwf : ∀ p ∈ dfaNodes, ∀ e ∈ (p : Nat × Node).2.outgoing_edges,
      ∃ nd, alookup dfaNodes (e : Edge).tgt = some nd) :
    ∀ (rest : List Char) (j cur : Nat) (last : Option (Nat × String)),
      (∃ nd, alookup dfaNodes cur = some nd) →
      lexInner dfaNodes rest j cur last ≠ none := by
  intro rest
  induction rest with
  | nil =>
    intro j cur last _
    simp [lexInner]
  | cons c cs ih =>
    intro j cur last hcur
    rcases hcur with ⟨nd, hnd⟩
    rw [lexInner]
    rcases h2 : nd.outgoing_edges.find? (fun e => e.path.contains c) with _ | e
    · simp only [hnd, h2]
      exact fun hh => Option.noConfusion hh
    · have he : e ∈ nd.outgoing_edges := List.mem_of_find?_eq_some h2
      rcases hwf (cur, nd) (alookup_mem hnd) e he with ⟨nd2, h3⟩
      simp only [hnd, h2, h3]
      exact ih (j + 1) e.tgt _ ⟨nd2, h3⟩

theorem lexOuterF_skip (dfaNodes : List (Nat × Node)) (root : Nat) (chars : List Char)
    (fuel index : Nat) (tokens : List (String × String)) (hidx : index < chars.length)
    (hin : lexInner dfaNodes (chars.drop index) index root none = some none) :
    lexOuterF dfaNodes root chars (fuel + 1) index tokens =
      lexOuterF dfaNodes root chars fuel (index + 1) tokens := by
  rw [lexOuterF_succ dfaNodes root chars fuel index tokens hidx, hin]

theorem lexOuterF_isSome (dfaNodes : List (Nat × Node)) (root : Nat) (chars : List Char)
    (hroot : ∃ nd, alookup dfaNodes root = some nd)
    (hwf : ∀ p ∈ dfaNodes, ∀ e ∈ (p : Nat × Node).2.outgoing_edges,
      ∃ nd, alookup dfaNodes (e : Edge).tgt = some nd) :
    ∀ (fuel index : Nat) (tokens : List (String × String)),
      chars.length - index ≤ fuel →
      (lexOuterF dfaNodes root chars fuel index tokens).isSome = true := by
  intro fuel
  induction fuel with
  | zero =>
    intro index tokens h
    by_cases hidx : index < chars.length
    · omega
    · rw [lexOuterF_else dfaNodes root chars 0 index tokens hidx]
      rfl
  | succ fuel ih =>
    intro index tokens h
    by_cases hidx : index < chars.length
    · rw [lexOuterF_succ dfaNodes root chars fuel index tokens hidx]
      rcases hin : lexInner dfaNodes (chars.drop index) index root none with _ | r
      · exact absurd hin (lexInner_ne_none dfaNodes hwf _ _ _ _ hroot)
      · rcases r with _ | p
        · exact ih (index + 1) tokens (by omega)
        · have hp : index < p.1 := by
            rcases lexInner_grow dfaNodes _ _ _ _ _ hin with h1 | ⟨e, n, h1, h2⟩
            · cases h1
            · injection h1 with h1
              rw [h1]
              exact h2
          exact ih p.1 _ (by omega)
    · rw [lexOuterF_else dfaNodes root chars _ index tokens hidx]
      rfl

theorem lexOuterF_stable (dfaNodes : List (Nat × Node)) (root : Nat) (chars : List Char) :
    ∀ (fuel index : Nat) (tokens : List (String × String)),
      chars.length - index ≤ fuel →
      lexOuterF dfaNodes root chars fuel index tokens =
        lexOuterF dfaNodes root chars (chars.length - index) index tokens := by
  intro fuel
  induction fuel using Nat.strong_induction_on with
  | _ fuel ih =>
    intro index tokens h
    by_cases hidx : index < chars.length
    · have hk : ∃ k, chars.length - index = k + 1 := ⟨chars.length - index - 1, by omega⟩
      rcases hk with ⟨k, hk⟩
      have hf : ∃ f, fuel = f + 1 := ⟨fuel - 1, by omega⟩
      rcases hf with ⟨f, hf⟩
      subst hf
      rw [hk, lexOuterF_succ dfaNodes root chars f index tokens hidx,
        lexOuterF_succ dfaNodes root chars k index tokens hidx]
      rcases hin : lexInner dfaNodes (chars.drop index) index root none with _ | r
      · rfl
      · rcases r with _ | p
        · have h1 := ih f (by omega) (index + 1) tokens (by omega)
          have h2 := ih k (by omega) (index + 1) tokens (by omega)
          exact h1.trans h2.symm
        · have hp : index < p.1 := by
            rcases lexInner_grow dfaNodes _ _ _ _ _ hin with h1 | ⟨e, n, h1, h2⟩
            · cases h1
            · injection h1 with h1
              rw [h1]
              exact h2
          have h1 := ih f (by omega) p.1
            (if p.2 ≠ ";" then tokens ++
              [(p.2, String.mk (trimChars ((chars.drop index).take (p.1 - index))))]
            else tokens) (by omega)
          have h2 := ih k (by omega) p.1
            (if p.2 ≠ ";" then tokens ++
              [(p.2, String.mk (trimChars ((chars.drop index).take (p.1 - index))))]
            else tokens) (by omega)
          exact h1.trans h2.symm
    · have h0 : chars.length - index = 0 := by omega
      rw [h0, lexOuterF_else dfaNodes root chars fuel index tokens hidx,
        lexOuterF_else dfaNodes root chars 0 index tokens hidx]

theorem lexOuterF_no_semi (dfaNodes : List (Nat × Node)) (root : Nat) (chars : List Char) :
    ∀ (fuel index : Nat) (tokens res : List (String × String)),
      lexOuterF dfaNodes root chars fuel index tokens = some res →
      ∀ p ∈ res, p ∈ tokens ∨ (p : String × String).1 ≠ ";" := by
  intro fuel
  induction fuel with
  | zero =>
    intro index tokens res h p hp
    by_cases hidx : index < chars.length
    · rw [lexOuterF_zero dfaNodes root chars index tokens hidx] at h
      cases h
    · rw [lexOuterF_else dfaNodes root chars 0 index tokens hidx] at h
      injection h with h
      exact Or.inl (h ▸ hp)
  | succ fuel ih =>
    intro index tokens res h p hp
    by_cases hidx : index < chars.length
    · rw [lexOuterF_succ dfaNodes root chars fuel index tokens hidx] at h
      rcases hin : lexInner dfaNodes (chars.drop index) index root none with _ | r
      · rw [hin] at h; cases h
      · rw [hin] at h
        rcases r with _ | q
        · exact ih (index + 1) tokens res h p hp
        · rcases ih q.1 _ res h p hp with h1 | h1
          · by_cases hq : q.2 ≠ ";"
            · rw [if_pos hq] at h1
              rcases List.mem_append.mp h1 with h2 | h2
              · exact Or.inl h2
              · simp only [List.mem_singleton] at h2
                refine Or.inr ?_
                rw [h2]
                exact hq
            · rw [if_neg hq] at h1
              exact Or.inl h1
          · exact Or.inr h1
    · rw [lexOuterF_else dfaNodes root chars _ index tokens hidx] at h
      injection h with h
      exact Or.inl (h ▸ hp)

end LexLemmas

section CreateLemmas

theorem create_dfa_state_eq (nfaNodes : List (Nat × Node)) (state_set : List Nat)
    (nodes : List (Nat × Node)) (counter : Nat) :
    create_dfa_state nfaNodes state_set nodes counter =
      (counter + 1,
       (counter + 1,
        ⟨if (state_set.any fun id => match alookup nfaNodes id with
            | some nd => nd.terminal
            | none => false) = true
          then (state_set.filterMap fun id => match alookup nfaNodes id with
            | some nd => if nd.terminal = true then some nd.name else none
            | none => none).headD "<>"
          else "<>",
         [], counter + 1,
         state_set.any fun id => match alookup nfaNodes id with
           | some nd => nd.terminal
           | none => false⟩) :: nodes,
       counter + 1) := rfl

theorem create_dfa_state_eq2 (nfaNodes : List (Nat × Node)) (state_set : List Nat)
    (nodes : List (Nat × Node)) (counter : Nat) :
    create_dfa_state nfaNodes state_set nodes counter =
      (counter + 1, (counter + 1, cdsNode nfaNodes state_set counter) :: nodes,
        counter + 1) := rfl

theorem cdsNode_edges (nfaNodes : List (Nat × Node)) (state_set : List Nat)
    (counter : Nat) : (cdsNode nfaNodes state_set counter).outgoing_edges = [] := rfl

theorem create_dfa_state_fst (nfaNodes : List (Nat × Node)) (state_set : List Nat)
    (nodes : List (Nat × Node)) (counter : Nat) :
    (create_dfa_state nfaNodes state_set nodes counter).1 = counter + 1 := rfl

theorem create_dfa_state_counter (nfaNodes : List (Nat × Node)) (state_set : List Nat)
    (nodes : List (Nat × Node)) (counter : Nat) :
    (create_dfa_state nfaNodes state_set nodes counter).2.2 = counter + 1 := rfl

theorem create_dfa_state_nodes (nfaNodes : List (Nat × Node)) (state_set : List Nat)
    (nodes : List (Nat × Node)) (counter : Nat) :
    ∃ newNode : Node, (create_dfa_state nfaNodes state_set nodes counter).2.1 =
      (counter + 1, newNode) :: nodes ∧ newNode.outgoing_edges = [] :=
  ⟨_, rfl, rfl⟩

theorem any_terminal_iff (nfaNodes : List (Nat × Node)) (state_set : List Nat) :
    (state_set.any fun id => match alookup nfaNodes id with
      | some nd => nd.terminal
      | none => false) = true ↔
    ∃ i ∈ state_set, ∃ m, alookup nfaNodes i = some m ∧ (m : Node).terminal = true := by
  rw [List.any_eq_true]
  constructor
  · rintro ⟨i, hi, hf⟩
    rcases hm : alookup nfaNodes i with _ | m
    · rw [hm] at hf
      cases hf
    · rw [hm] at hf
      exact ⟨i, hi, m, hm, hf⟩
  · rintro ⟨i, hi, m, hm, ht⟩
    refine ⟨i, hi, ?_⟩
    rw [hm]
    exact ht

theorem filterMap_headD_min {g : Nat → Option String} :
    ∀ (l : List Nat), l.Sorted (· < ·) → ∀ i ∈ l, ∀ v, g i = some v →
      (∀ j ∈ l, j < i → g j = none) → ∀ d, (l.filterMap g).headD d = v := by
  intro l
  induction l with
  | nil => intro _ i hi; simp at hi
  | cons a t ih =>
    intro hsort i hi v hgi hmin d
    have hat : ∀ b ∈ t, a < b := fun b hb => List.rel_of_sorted_cons hsort b hb
    rcases hga : g a with _ | w
    · rw [List.filterMap_cons_none hga]
      have hia : i ≠ a := fun hh => by rw [hh] at hgi; rw [hga] at hgi; cases hgi
      have hit : i ∈ t := by
        rcases List.mem_cons.mp hi with h | h
        · exact absurd h hia
        · exact h
      exact ih (List.sorted_cons.mp hsort).2 i hit v hgi
        (fun j hj => hmin j (List.mem_cons_of_mem a hj)) d
    · rw [List.filterMap_cons_some hga]
      have hwv : w = v := by
        rcases List.mem_cons.mp hi with h | h
        · rw [h] at hgi
          rw [hga] at hgi
          injection hgi
        · have := hmin a (List.mem_cons_self a t) (hat i h)
          rw [this] at hga
          cases hga
      rw [hwv]
      rfl

end CreateLemmas

section DfaMeasureLemmas

theorem move_fold_pred (nfaNodes : List (Nat × Node)) (ch : Char) (P : Nat → Prop)
    (hP : ∀ id, ∀ e ∈ edgesOf nfaNodes id, P (e : Edge).tgt) :
    ∀ (ss : List Nat) (acc : List Nat), (∀ b ∈ acc, P b) →
      ∀ b ∈ ss.foldl (fun result state_id =>
        (edgesOf nfaNodes state_id).foldl
          (fun r e => if e.path.contains ch ∧ e.tgt ∉ r then sinsert e.tgt r else r) result)
        acc, P b := by
  have hin : ∀ (id : Nat) (edges : List Edge), (∀ e ∈ edges, e ∈ edgesOf nfaNodes id) →
      ∀ acc2, (∀ b ∈ acc2, P b) →
      ∀ b ∈ edges.foldl
        (fun r e => if e.path.contains ch ∧ e.tgt ∉ r then sinsert e.tgt r else r) acc2,
      P b := by
    intro id edges
    induction edges with
    | nil => intro _ acc2 hacc2 b hb; exact hacc2 b hb
    | cons e es ihe =>
      intro hmem acc2 hacc2 b hb
      rw [List.foldl_cons] at hb
      refine ihe (fun e' he' => hmem e' (List.mem_cons_of_mem e he')) _ ?_ b hb
      intro b2 hb2
      split at hb2
      · rcases (mem_sinsert _ _ _).mp hb2 with h | h
        · rw [h]
          exact hP id e (hmem e (List.mem_cons_self e es))
        · exact hacc2 b2 h
      · exact hacc2 b2 hb2
  intro ss
  induction ss with
  | nil => intro acc hacc b hb; exact hacc b hb
  | cons id ids ih =>
    intro acc hacc b hb
    rw [List.foldl_cons] at hb
    exact ih _ (hin id (edgesOf nfaNodes id) (fun e he => he) acc hacc) b hb

theorem move_fold_sorted (nfaNodes : List (Nat × Node)) (ch : Char) :
    ∀ (ss : List Nat) (acc : List Nat), acc.Sorted (· < ·) →
      (ss.foldl (fun result state_id =>
        (edgesOf nfaNodes state_id).foldl
          (fun r e => if e.path.contains ch ∧ e.tgt ∉ r then sinsert e.tgt r else r) result)
        acc).Sorted (· < ·) := by
  have hin : ∀ (edges : List Edge) (acc2 : List Nat), acc2.Sorted (· < ·) →
      (edges.foldl
        (fun r e => if e.path.contains ch ∧ e.tgt ∉ r then sinsert e.tgt r else r)
        acc2).Sorted (· < ·) := by
    intro edges
    induction edges with
    | nil => intro acc2 h; exact h
    | cons e es ihe =>
      intro acc2 h
      rw [List.foldl_cons]
      refine ihe _ ?_
      split
      · exact sorted_sinsert _ _ h
      · exact h
  intro ss
  induction ss with
  | nil => intro acc h; exact h
  | cons id ids ih =>
    intro acc h
    rw [List.foldl_cons]
    exact ih _ (hin (edgesOf nfaNodes id) acc h)

theorem move_nfa_pred (nfaNodes : List (Nat × Node)) (state_set : List Nat) (ch : Char) :
    ∀ a ∈ move_nfa nfaNodes state_set ch, a ∈ allTargets nfaNodes := by
  rw [move_nfa]
  exact move_fold_pred nfaNodes ch (fun a => a ∈ allTargets nfaNodes)
    (fun id e he => tgt_mem_allTargets he) state_set [] (by simp)

theorem move_nfa_sorted (nfaNodes : List (Nat × Node)) (state_set : List Nat) (ch : Char) :
    (move_nfa nfaNodes state_set ch).Sorted (· < ·) := by
  rw [move_nfa]
  exact move_fold_sorted nfaNodes ch state_set [] (by simp)

theorem closure_move_sub (nfaNodes : List (Nat × Node)) (state_set : List Nat) (ch : Char) :
    ∀ a ∈ epsilon_closure nfaNodes (move_nfa nfaNodes state_set ch),
      a ∈ allTargets nfaNodes := by
  intro a ha
  rcases epsilon_closure_bound nfaNodes _ a ha with h | h
  · exact move_nfa_pred nfaNodes state_set ch a h
  · exact h

theorem closure_move_sorted (nfaNodes : List (Nat × Node)) (state_set : List Nat)
    (ch : Char) :
    (epsilon_closure nfaNodes (move_nfa nfaNodes state_set ch)).Sorted (· < ·) :=
  epsilon_closure_sorted nfaNodes _ (move_nfa_sorted nfaNodes state_set ch)

theorem sorted_subset_sublist :
    ∀ (U s : List Nat), s.Sorted (· < ·) → U.Sorted (· < ·) → (∀ a ∈ s, a ∈ U) →
      s.Sublist U := by
  intro U
  induction U with
  | nil =>
    intro s _ _ hsub
    cases s with
    | nil => exact List.Sublist.refl []
    | cons a s' => exact absurd (hsub a (List.mem_cons_self a s')) (List.not_mem_nil a)
  | cons u U' ih =>
    intro s hs hU hsub
    cases s with
    | nil => exact List.nil_sublist _
    | cons a s' =>
      have hUlt : ∀ b ∈ U', u < b := fun b hb => List.rel_of_sorted_cons hU b hb
      have hslt : ∀ b ∈ s', a < b := fun b hb => List.rel_of_sorted_cons hs b hb
      by_cases hau : a = u
      · subst hau
        refine List.Sublist.cons₂ a ?_
        refine ih s' (List.sorted_cons.mp hs).2 (List.sorted_cons.mp hU).2 ?_
        intro b hb
        have hab : a < b := hslt b hb
        rcases List.mem_cons.mp (hsub b (List.mem_cons_of_mem a hb)) with h | h
        · rw [h] at hab
          exact absurd hab (lt_irrefl a)
        · exact h
      · refine List.Sublist.cons u ?_
        refine ih (a :: s') hs (List.sorted_cons.mp hU).2 ?_
        intro b hb
        have hbu : u < b := by
          rcases List.mem_cons.mp hb with h | h
          · rcases List.mem_cons.mp (hsub a (List.mem_cons_self a s')) with h2 | h2
            · exact absurd h2 hau
            · rw [h]
              exact hUlt a h2
          · have hab : a < b := hslt b h
            rcases List.mem_cons.mp (hsub a (List.mem_cons_self a s')) with h2 | h2
            · exact absurd h2 hau
            · exact lt_trans (hUlt a h2) hab
        rcases List.mem_cons.mp (hsub b hb) with h | h
        · rw [h] at hbu
          exact absurd hbu (lt_irrefl u)
        · exact h

theorem foldr_sinsert_sorted (edges : List Edge) (acc : List Nat)
    (h : acc.Sorted (· < ·)) :
    (edges.foldr (fun e a => sinsert (e : Edge).tgt a) acc).Sorted (· < ·) := by
  induction edges with
  | nil => exact h
  | cons e es ih => exact sorted_sinsert _ _ ih

theorem allTargets_sorted (nodes : List (Nat × Node)) :
    (allTargets nodes).Sorted (· < ·) := by
  induction nodes with
  | nil => simp [allTargets]
  | cons p ps ih =>
    rw [allTargets, List.foldr_cons]
    exact foldr_sinsert_sorted _ _ ih

theorem alookup_cons_none {α β : Type} [DecidableEq α] {k a : α} {v : β}
    {l : List (α × β)} :
    alookup ((k, v) :: l) a = none ↔ ¬ k = a ∧ alookup l a = none := by
  rw [show alookup ((k, v) :: l) a = if k = a then some v else alookup l a from rfl]
  by_cases h : k = a <;> simp [h]

theorem processSymbol_measure (nfaNodes : List (Nat × Node)) (current_set : List Nat)
    (current_dfa_id : Nat) (st : DSt) (ch : Char) :
    dfaMeasure nfaNodes (processSymbol nfaNodes current_set current_dfa_id st ch) ≤
      dfaMeasure nfaNodes st := by
  rw [processSymbol]
  split
  · exact le_refl _
  · rcases hl : alookup st.dfa_states (epsilon_closure nfaNodes
        (move_nfa nfaNodes current_set ch)) with _ | next_id
    · rename_i hne
      rw [create_dfa_state_eq]
      have hsub : (epsilon_closure nfaNodes (move_nfa nfaNodes current_set ch)).Sublist
          (allTargets nfaNodes) :=
        sorted_subset_sublist (allTargets nfaNodes) _
          (closure_move_sorted nfaNodes current_set ch) (allTargets_sorted nfaNodes)
          (closure_move_sub nfaNodes current_set ch)
      have hmem : epsilon_closure nfaNodes (move_nfa nfaNodes current_set ch) ∈
          (allTargets nfaNodes).sublists := List.mem_sublists.mpr hsub
      have hlt : (((allTargets nfaNodes).sublists).filter
            (fun s => alookup ((epsilon_closure nfaNodes (move_nfa nfaNodes current_set ch),
              st.counter + 1) :: st.dfa_states) s = none)).length <
          (((allTargets nfaNodes).sublists).filter
            (fun s => alookup st.dfa_states s = none)).length := by
        apply length_filter_lt_mono _ (fun s => decide (alookup st.dfa_states s = none))
          (fun s => decide (alookup ((epsilon_closure nfaNodes
            (move_nfa nfaNodes current_set ch), st.counter + 1) :: st.dfa_states) s = none))
        · intro s hq
          simp only [decide_eq_true_eq] at hq ⊢
          exact (alookup_cons_none.mp hq).2
        · exact hmem
        · simp only [decide_eq_true_eq]
          exact hl
        · simp only [decide_eq_false_iff_not]
          intro hc
          exact (alookup_cons_none.mp hc).1 rfl
      rw [dfaMeasure, dfaMeasure]
      simp only [List.length_append, List.length_singleton]
      omega
    · rw [dfaMeasure, dfaMeasure]

theorem foldSymbols_measure (nfaNodes : List (Nat × Node)) (current_set : List Nat)
    (current_dfa_id : Nat) :
    ∀ (syms : List Char) (st : DSt),
      dfaMeasure nfaNodes
        (syms.foldl (processSymbol nfaNodes current_set current_dfa_id) st) ≤
      dfaMeasure nfaNodes st := by
  intro syms
  induction syms with
  | nil => intro st; exact le_refl _
  | cons ch chs ih =>
    intro st
    rw [List.foldl_cons]
    exact le_trans (ih _) (processSymbol_measure nfaNodes current_set current_dfa_id st ch)

theorem dfaLoopF_isSome (nfaNodes : List (Nat × Node)) :
    ∀ (fuel : Nat) (st : DSt), dfaMeasure nfaNodes st ≤ fuel →
      (dfaLoopF nfaNodes fuel st).isSome = true := by
  intro fuel
  induction fuel with
  | zero =>
    intro st h
    rw [dfaLoopF]
    rcases hq : st.unmarked with _ | ⟨current_set, rest⟩
    · simp
    · rw [dfaMeasure, hq] at h
      simp at h
  | succ fuel ih =>
    intro st h
    rw [dfaLoopF]
    rcases hq : st.unmarked with _ | ⟨current_set, rest⟩
    · simp
    · have hpop : dfaMeasure nfaNodes
          ⟨st.dfa_states, rest, st.nodes, st.counter, st.root_id⟩ + 1 =
          dfaMeasure nfaNodes st := by
        rw [dfaMeasure, dfaMeasure, hq]
        simp only [List.length_cons]
        omega
      apply ih
      refine le_trans (foldSymbols_measure nfaNodes current_set _ _ _) ?_
      omega

theorem dfaStart_measure (nfaNodes : List (Nat × Node)) (nfaRoot counter : Nat) :
    dfaMeasure nfaNodes (dfaStart nfaNodes nfaRoot counter) ≤ dfaFuel nfaNodes := by
  rw [dfaMeasure, dfaFuel, dfaStart]
  have h1 : (((allTargets nfaNodes).sublists).filter
      (fun s => alookup (dfaStart nfaNodes nfaRoot counter).dfa_states s = none)).length ≤
      ((allTargets nfaNodes).sublists).length := List.length_filter_le _ _
  have h2 : ((allTargets nfaNodes).sublists).length = 2 ^ (allTargets nfaNodes).length :=
    List.length_sublists _
  have h3 : (((allTargets nfaNodes).sublists).filter (fun s =>
      alookup [(epsilon_closure nfaNodes [nfaRoot],
        (create_dfa_state nfaNodes (epsilon_closure nfaNodes [nfaRoot])
          [(counter + 1, ⟨"DFA", [], counter + 1, false⟩)] (counter + 1)).1)] s =
        none)).length ≤ ((allTargets nfaNodes).sublists).length :=
    List.length_filter_le _ _
  simp only [List.length_singleton]
  omega

theorem dfaLoopF_eq_some (nfaNodes : List (Nat × Node)) (nfaRoot counter : Nat) :
    dfaLoopF nfaNodes (dfaFuel nfaNodes) (dfaStart nfaNodes nfaRoot counter) =
      some (Dfa.construct nfaNodes nfaRoot counter) := by
  have h := dfaLoopF_isSome nfaNodes (dfaFuel nfaNodes) (dfaStart nfaNodes nfaRoot counter)
    (dfaStart_measure nfaNodes nfaRoot counter)
  rcases hr : dfaLoopF nfaNodes (dfaFuel nfaNodes) (dfaStart nfaNodes nfaRoot counter)
      with _ | r
  · rw [hr] at h
    simp at h
  · rw [Dfa.construct, hr]
    rfl

end DfaMeasureLemmas

section DInvLemmas

theorem nodup_map_ne {α β : Type} {f : α → β} {l : List α} (h : (l.map f).Nodup)
    {p q : α} (hp : p ∈ l) (hq : q ∈ l) (hne : p ≠ q) : f p ≠ f q := by
  induction l with
  | nil => simp at hp
  | cons a t ih =>
    rw [List.map_cons] at h
    rcases List.nodup_cons.mp h with ⟨hfa, ht⟩
    rcases List.mem_cons.mp hp with hp1 | hp1
    · rcases List.mem_cons.mp hq with hq1 | hq1
      · rw [hp1, hq1] at hne
        exact absurd rfl hne
      · subst hp1
        intro hc
        exact hfa (hc ▸ List.mem_map_of_mem f hq1)
    · rcases List.mem_cons.mp hq with hq1 | hq1
      · subst hq1
        intro hc
        exact hfa (hc ▸ List.mem_map_of_mem f hp1)
      · exact ih ht hp1 hq1

theorem vals_nodup_ne {m : List (List Nat × Nat)} (hvals : (m.map Prod.snd).Nodup)
    {s s' : List Nat} {id id' : Nat} (hs : alookup m s = some id)
    (hs' : alookup m s' = some id') (hne : s ≠ s') : id ≠ id' := by
  have hmem := alookup_mem hs
  have hmem' := alookup_mem hs'
  have hpq : ((s, id) : List Nat × Nat) ≠ (s', id') := by
    intro hc
    injection hc with h1 _
    exact hne h1
  exact nodup_map_ne hvals hmem hmem' hpq

theorem mem_aupdate {α β : Type} [DecidableEq α] {l : List (α × β)} {a : α} {f : β → β} :
    ∀ p ∈ aupdate l a f, ∃ q ∈ l, (p : α × β).1 = (q : α × β).1 ∧
      ((p : α × β).2 = (q : α × β).2 ∨ (p : α × β).2 = f (q : α × β).2) := by
  induction l with
  | nil => simp [aupdate]
  | cons q0 t ih =>
    intro p hp
    rw [aupdate] at hp
    split at hp
    · rcases List.mem_cons.mp hp with h | h
      · exact ⟨q0, List.mem_cons_self q0 t, by rw [h], Or.inr (by rw [h])⟩
      · rcases ih p h with ⟨q, hq, h1, h2⟩
        exact ⟨q, List.mem_cons_of_mem q0 hq, h1, h2⟩
    · rcases List.mem_cons.mp hp with h | h
      · exact ⟨q0, List.mem_cons_self q0 t, by rw [h], Or.inl (by rw [h])⟩
      · rcases ih p h with ⟨q, hq, h1, h2⟩
        exact ⟨q, List.mem_cons_of_mem q0 hq, h1, h2⟩

theorem alookup_aupdate_exists {α β : Type} [DecidableEq α] {l : List (α × β)} {a b : α}
    {f : β → β} (h : ∃ v, alookup l b = some v) :
    ∃ v, alookup (aupdate l a f) b = some v := by
  rcases h with ⟨v, hv⟩
  by_cases hb : b = a
  · subst hb
    rw [alookup_aupdate_self, hv]
    exact ⟨f v, rfl⟩
  · rw [alookup_aupdate_ne l a b f hb, hv]
    exact ⟨v, rfl⟩

theorem mergeEdgeList_chars (es : List Edge) (tgt : Nat) (ch : Char) :
    ∀ e' ∈ mergeEdgeList es tgt ch, ∀ c ∈ (e' : Edge).path,
      (∃ e ∈ es, c ∈ (e : Edge).path) ∨ c = ch := by
  induction es with
  | nil =>
    intro e' he' c hc
    rw [mergeEdgeList] at he'
    rcases List.mem_singleton.mp he' with h
    rw [h] at hc
    rcases List.mem_singleton.mp hc with h2
    exact Or.inr h2
  | cons e es ih =>
    intro e' he' c hc
    rw [mergeEdgeList] at he'
    split at he'
    · rcases List.mem_cons.mp he' with h | h
      · rw [h] at hc
        rcases List.mem_append.mp hc with h2 | h2
        · exact Or.inl ⟨e, List.mem_cons_self e es, h2⟩
        · exact Or.inr (List.mem_singleton.mp h2)
      · exact Or.inl ⟨e', List.mem_cons_of_mem e h, hc⟩
    · rcases List.mem_cons.mp he' with h | h
      · rw [h] at hc
        exact Or.inl ⟨e, List.mem_cons_self e es, hc⟩
      · rcases ih e' h c hc with ⟨e2, he2, hc2⟩ | h2
        · exact Or.inl ⟨e2, List.mem_cons_of_mem e he2, hc2⟩
        · exact Or.inr h2

theorem mergeEdgeList_disjoint (es : List Edge) (tgt : Nat) (ch : Char)
    (hd : edgesDisjoint es) (hch : ∀ e ∈ es, ch ∉ (e : Edge).path) :
    edgesDisjoint (mergeEdgeList es tgt ch) := by
  induction es with
  | nil =>
    rw [mergeEdgeList]
    exact List.pairwise_singleton _ _
  | cons e es ih =>
    rcases List.pairwise_cons.mp hd with ⟨hhead, htail⟩
    rw [mergeEdgeList]
    split
    · refine List.pairwise_cons.mpr ⟨?_, htail⟩
      intro e2 he2 c hc
      rcases List.mem_append.mp hc with h2 | h2
      · exact hhead e2 he2 c h2
      · rw [List.mem_singleton.mp h2]
        exact hch e2 (List.mem_cons_of_mem e he2)
    · refine List.pairwise_cons.mpr ⟨?_, ?_⟩
      · intro e2 he2 c hc
        intro hc2
        rcases mergeEdgeList_chars es tgt ch e2 he2 c hc2 with ⟨e3, he3, hc3⟩ | h3
        · exact hhead e3 he3 c hc hc3
        · rw [h3] at hc
          exact hch e (List.mem_cons_self e es) hc
      · exact ih htail (fun e2 he2 => hch e2 (List.mem_cons_of_mem e he2))

theorem mergeEdgeList_targets (es : List Edge) (tgt : Nat) (ch : Char) :
    ∀ e' ∈ mergeEdgeList es tgt ch,
      (e' : Edge).tgt = tgt ∨ ∃ e ∈ es, (e' : Edge).tgt = (e : Edge).tgt := by
  induction es with
  | nil =>
    intro e' he'
    rw [mergeEdgeList] at he'
    rw [List.mem_singleton.mp he']
    exact Or.inl rfl
  | cons e es ih =>
    intro e' he'
    rw [mergeEdgeList] at he'
    split at he'
    · rename_i hte
      rcases List.mem_cons.mp he' with h | h
      · rw [h]
        exact Or.inl hte
      · exact Or.inr ⟨e', List.mem_cons_of_mem e h, rfl⟩
    · rcases List.mem_cons.mp he' with h | h
      · rw [h]
        exact Or.inr ⟨e, List.mem_cons_self e es, rfl⟩
      · rcases ih e' h with h2 | ⟨e2, he2, h2⟩
        · exact Or.inl h2
        · exact Or.inr ⟨e2, List.mem_cons_of_mem e he2, h2⟩

theorem alookup_cons {α β : Type} [DecidableEq α] (k : α) (v : β) (l : List (α × β))
    (a : α) : alookup ((k, v) :: l) a = if k = a then some v else alookup l a := rfl

theorem FInv_mono_done {nfaNodes : List (Nat × Node)} {cur : Nat} {done done' : List Char}
    {st : DSt} (hF : FInv nfaNodes cur done st) (hsub : ∀ c ∈ done, c ∈ done') :
    FInv nfaNodes cur done' st := by
  refine ⟨hF.keysNodup, hF.valsNodup, hF.keysSorted, hF.queueNodup, hF.queueKeys,
    hF.queueCleanF, hF.disjointOther, ?_, hF.statesExist, hF.nodesNodup, hF.counterBound,
    hF.countEq, hF.targetsExist, hF.rootExists, hF.curBound⟩
  intro nd hnd
  rcases hF.currentOk nd hnd with ⟨h1, h2⟩
  exact ⟨h1, fun e he c hc => hsub c (h2 e he c hc)⟩

theorem FInv_hit_step (nfaNodes : List (Nat × Node)) (cur : Nat) (done : List Char)
    (st : DSt) (ch : Char) (closure : List Nat) (next_id : Nat)
    (hF : FInv nfaNodes cur done st) (hch : ch ∉ done)
    (hl : alookup st.dfa_states closure = some next_id) :
    FInv nfaNodes cur (done ++ [ch])
      ⟨st.dfa_states, st.unmarked,
        aupdate st.nodes cur (fun nd =>
          ⟨nd.name, mergeEdgeList nd.outgoing_edges next_id ch, nd.id, nd.terminal⟩),
        st.counter, st.root_id⟩ := by
  refine ⟨hF.keysNodup, hF.valsNodup, hF.keysSorted, hF.queueNodup, hF.queueKeys,
    ?_, ?_, ?_, ?_, ?_, ?_, ?_, ?_, ?_, hF.curBound⟩
  · intro s hs id hid
    rcases hF.queueCleanF s hs id hid with ⟨hne_cur, hcl⟩
    refine ⟨hne_cur, ?_⟩
    intro nd hnd
    rw [alookup_aupdate_ne _ _ _ _ hne_cur] at hnd
    exact hcl nd hnd
  · intro id nd hne2 hnd
    rw [alookup_aupdate_ne _ _ _ _ hne2] at hnd
    exact hF.disjointOther id nd hne2 hnd
  · intro nd hnd
    rw [alookup_aupdate_self] at hnd
    rcases h0 : alookup st.nodes cur with _ | nd0
    · rw [h0] at hnd
      cases hnd
    · rw [h0] at hnd
      injection hnd with hnd
      rcases hF.currentOk nd0 h0 with ⟨hd0, hc0⟩
      have hchp : ∀ e ∈ nd0.outgoing_edges, ch ∉ (e : Edge).path := by
        intro e he hc
        exact hch (hc0 e he ch hc)
      rw [← hnd]
      constructor
      · exact mergeEdgeList_disjoint _ _ _ hd0 hchp
      · intro e he c hc
        rcases mergeEdgeList_chars _ _ _ e he c hc with ⟨e2, he2, hc2⟩ | h2
        · exact List.mem_append_left _ (hc0 e2 he2 c hc2)
        · rw [h2]
          exact List.mem_append_right _ (List.mem_singleton_self ch)
  · intro p hp
    exact alookup_aupdate_exists (hF.statesExist p hp)
  · rw [aupdate_keys]
    exact hF.nodesNodup
  · intro p hp
    rcases mem_aupdate p hp with ⟨q, hq, h1, _⟩
    rw [h1]
    exact hF.counterBound q hq
  · rw [aupdate_length]
    exact hF.countEq
  · intro p hp e he
    rcases mem_aupdate p hp with ⟨q, hq, h1, h2⟩
    rcases h2 with h2 | h2
    · rw [h2] at he
      exact alookup_aupdate_exists (hF.targetsExist q hq e he)
    · rw [h2] at he
      rcases mergeEdgeList_targets _ _ _ e he with h3 | ⟨e2, he2, h3⟩
      · rw [h3]
        exact alookup_aupdate_exists (hF.statesExist _ (alookup_mem hl))
      · rw [h3]
        exact alookup_aupdate_exists (hF.targetsExist q hq e2 he2)
  · exact alookup_aupdate_exists hF.rootExists

theorem FInv_create_step (nfaNodes : List (Nat × Node)) (cur : Nat) (done : List Char)
    (st : DSt) (ch : Char) (closure : List Nat) (newNode : Node)
    (hF : FInv nfaNodes cur done st) (hch : ch ∉ done)
    (hedges : newNode.outgoing_edges = []) (hsorted : closure.Sorted (· < ·))
    (hl : alookup st.dfa_states closure = none) :
    FInv nfaNodes cur (done ++ [ch])
      ⟨(closure, st.counter + 1) :: st.dfa_states, st.unmarked ++ [closure],
        aupdate ((st.counter + 1, newNode) :: st.nodes) cur
          (fun nd => ⟨nd.name, mergeEdgeList nd.outgoing_edges (st.counter + 1) ch,
            nd.id, nd.terminal⟩),
        st.counter + 1, st.root_id⟩ := by
  have hvals_le : ∀ p ∈ st.dfa_states, (p : List Nat × Nat).2 ≤ st.counter := by
    intro p hp
    rcases hF.statesExist p hp with ⟨nd, hnd⟩
    exact hF.counterBound _ (alookup_mem hnd)
  have hcl_key : closure ∉ st.dfa_states.map Prod.fst := alookup_eq_none.mp hl
  have hcl_queue : closure ∉ st.unmarked := by
    intro hc
    rcases hF.queueKeys _ hc with ⟨id, hid⟩
    rw [hl] at hid
    cases hid
  have hcur_ne : ¬ st.counter + 1 = cur := by
    have := hF.curBound
    omega
  have hfresh : ∀ p ∈ st.nodes, (p : Nat × Node).1 ≠ st.counter + 1 := by
    intro p hp hc
    have := hF.counterBound p hp
    omega
  have hnew : ∃ nd, alookup (aupdate ((st.counter + 1, newNode) :: st.nodes) cur
      (fun nd => ⟨nd.name, mergeEdgeList nd.outgoing_edges (st.counter + 1) ch,
        nd.id, nd.terminal⟩)) (st.counter + 1) = some nd := by
    refine alookup_aupdate_exists ?_
    rw [alookup_cons, if_pos rfl]
    exact ⟨newNode, rfl⟩
  have hold : ∀ t (nd0 : Node), alookup st.nodes t = some nd0 →
      ∃ nd, alookup (aupdate ((st.counter + 1, newNode) :: st.nodes) cur
        (fun nd => ⟨nd.name, mergeEdgeList nd.outgoing_edges (st.counter + 1) ch,
          nd.id, nd.terminal⟩)) t = some nd := by
    intro t nd0 hnd0
    refine alookup_aupdate_exists ?_
    rw [alookup_cons, if_neg (fun hc => hfresh _ (alookup_mem hnd0) hc.symm)]
    exact ⟨nd0, hnd0⟩
  refine ⟨?_, ?_, ?_, ?_, ?_, ?_, ?_, ?_, ?_, ?_, ?_, ?_, ?_, ?_, ?_⟩
  · exact List.nodup_cons.mpr ⟨hcl_key, hF.keysNodup⟩
  · refine List.nodup_cons.mpr ⟨?_, hF.valsNodup⟩
    intro hc
    rcases List.mem_map.mp hc with ⟨p, hp, hp2⟩
    have := hvals_le p hp
    omega
  · intro p hp
    rcases List.mem_cons.mp hp with h | h
    · rw [h]
      exact hsorted
    · exact hF.keysSorted p h
  · rw [List.nodup_append]
    refine ⟨hF.queueNodup, List.nodup_singleton _, ?_⟩
    intro s hs hs2
    rw [List.mem_singleton.mp hs2] at hs
    exact hcl_queue hs
  · intro s hs
    rcases List.mem_append.mp hs with h | h
    · rcases hF.queueKeys s h with ⟨id, hid⟩
      refine ⟨id, ?_⟩
      rw [alookup_cons, if_neg, hid]
      intro hc
      rw [hc] at hl
      rw [hl] at hid
      cases hid
    · rw [List.mem_singleton.mp h, alookup_cons, if_pos rfl]
      exact ⟨st.counter + 1, rfl⟩
  · intro s hs id hid
    rcases List.mem_append.mp hs with h | h
    · have hsne : ¬ closure = s := by
        intro hc
        rw [← hc] at h
        exact hcl_queue h
      rw [alookup_cons, if_neg hsne] at hid
      rcases hF.queueCleanF s h id hid with ⟨hne_cur, hcl⟩
      refine ⟨hne_cur, ?_⟩
      intro nd hnd
      rw [alookup_aupdate_ne _ _ _ _ hne_cur, alookup_cons, if_neg] at hnd
      · exact hcl nd hnd
      · intro hc
        have := hvals_le _ (alookup_mem hid)
        omega
    · rw [List.mem_singleton.mp h, alookup_cons, if_pos rfl] at hid
      injection hid with hid
      subst hid
      refine ⟨fun hc => hcur_ne hc, ?_⟩
      intro nd hnd
      rw [alookup_aupdate_ne _ _ _ _ (fun hc => hcur_ne hc), alookup_cons,
        if_pos rfl] at hnd
      injection hnd with hnd
      rw [← hnd]
      exact hedges
  · intro id nd hne2 hnd
    rw [alookup_aupdate_ne _ _ _ _ hne2, alookup_cons] at hnd
    split at hnd
    · injection hnd with hnd
      rw [← hnd, hedges]
      exact List.Pairwise.nil
    · exact hF.disjointOther id nd hne2 hnd
  · intro nd hnd
    rw [alookup_aupdate_self, alookup_cons, if_neg hcur_ne] at hnd
    rcases h0 : alookup st.nodes cur with _ | nd0
    · rw [h0] at hnd
      cases hnd
    · rw [h0] at hnd
      injection hnd with hnd
      rcases hF.currentOk nd0 h0 with ⟨hd0, hc0⟩
      have hchp : ∀ e ∈ nd0.outgoing_edges, ch ∉ (e : Edge).path := by
        intro e he hc
        exact hch (hc0 e he ch hc)
      rw [← hnd]
      constructor
      · exact mergeEdgeList_disjoint _ _ _ hd0 hchp
      · intro e he c hc
        rcases mergeEdgeList_chars _ _ _ e he c hc with ⟨e2, he2, hc2⟩ | h2
        · exact List.mem_append_left _ (hc0 e2 he2 c hc2)
        · rw [h2]
          exact List.mem_append_right _ (List.mem_singleton_self ch)
  · intro p hp
    rcases List.mem_cons.mp hp with h | h
    · rw [h]
      exact hnew
    · rcases hF.statesExist p h with ⟨nd, hnd⟩
      exact hold _ nd hnd
  · rw [aupdate_keys, List.map_cons]
    refine List.nodup_cons.mpr ⟨?_, hF.nodesNodup⟩
    intro hc
    rcases List.mem_map.mp hc with ⟨p, hp, hp2⟩
    exact hfresh p hp hp2
  · intro p hp
    show (p : Nat × Node).1 ≤ st.counter + 1
    rcases mem_aupdate p hp with ⟨q, hq, h1, _⟩
    rcases List.mem_cons.mp hq with h | h
    · rw [h1, h]
    · rw [h1]
      have := hF.counterBound q h
      omega
  · rw [aupdate_length, List.length_cons, List.length_cons, hF.countEq]
  · intro p hp e he
    rcases mem_aupdate p hp with ⟨q, hq, h1, h2⟩
    rcases List.mem_cons.mp hq with hqh | hqh
    · rcases h2 with h2 | h2
      · rw [h2, hqh] at he
        simp only [hedges] at he
        simp at he
      · rw [h2, hqh] at he
        simp only [hedges, mergeEdgeList] at he
        rcases List.mem_singleton.mp he with h3
        rw [h3]
        exact hnew
    · rcases h2 with h2 | h2
      · rw [h2] at he
        rcases hF.targetsExist q hqh e he with ⟨nd0, hnd0⟩
        exact hold _ nd0 hnd0
      · rw [h2] at he
        rcases mergeEdgeList_targets _ _ _ e he with h3 | ⟨e2, he2, h3⟩
        · rw [h3]
          exact hnew
        · rw [h3]
          rcases hF.targetsExist q hqh e2 he2 with ⟨nd0, hnd0⟩
          exact hold _ nd0 hnd0
  · rcases hF.rootExists with ⟨nd, hnd⟩
    exact hold _ nd hnd
  · show cur ≤ st.counter + 1
    have := hF.curBound
    omega

theorem processSymbol_inv (nfaNodes : List (Nat × Node)) (current_set : List Nat)
    (cur : Nat) (done : List Char) (st : DSt) (ch : Char)
    (hF : FInv nfaNodes cur done st) (hch : ch ∉ done) :
    FInv nfaNodes cur (done ++ [ch])
      (processSymbol nfaNodes current_set cur st ch) := by
  rw [processSymbol]
  split
  · exact FInv_mono_done hF (fun c hc => List.mem_append_left _ hc)
  · split
    · rename_i next_id hl
      exact FInv_hit_step nfaNodes cur done st ch _ next_id hF hch hl
    · rename_i hl
      simp only [create_dfa_state_eq2]
      exact FInv_create_step nfaNodes cur done st ch _
        (cdsNode nfaNodes (epsilon_closure nfaNodes (move_nfa nfaNodes current_set ch))
          st.counter) hF hch (cdsNode_edges _ _ _)
        (closure_move_sorted nfaNodes current_set ch) hl

theorem foldl_sinsert_sorted (cs : List Char) (acc : List Char)
    (h : acc.Sorted (· < ·)) :
    (cs.foldl (fun a ch => sinsert ch a) acc).Sorted (· < ·) := by
  induction cs generalizing acc with
  | nil => exact h
  | cons c cs ih =>
    rw [List.foldl_cons]
    exact ih _ (sorted_sinsert _ _ h)

theorem extract_symbols_sorted (nfaNodes : List (Nat × Node)) (state_set : List Nat) :
    (extract_symbols nfaNodes state_set).Sorted (· < ·) := by
  rw [extract_symbols]
  have hin : ∀ (edges : List Edge) (acc : List Char), acc.Sorted (· < ·) →
      (edges.foldl (fun r e => if e.path = epsLabel then r
        else e.path.foldl (fun a ch => sinsert ch a) r) acc).Sorted (· < ·) := by
    intro edges
    induction edges with
    | nil => intro acc h; exact h
    | cons e es ihe =>
      intro acc h
      rw [List.foldl_cons]
      refine ihe _ ?_
      split
      · exact h
      · exact foldl_sinsert_sorted _ _ h
  have hout : ∀ (ss : List Nat) (acc : List Char), acc.Sorted (· < ·) →
      (ss.foldl (fun result state_id => (edgesOf nfaNodes state_id).foldl
        (fun r e => if e.path = epsLabel then r
          else e.path.foldl (fun a ch => sinsert ch a) r) result) acc).Sorted (· < ·) := by
    intro ss
    induction ss with
    | nil => intro acc h; exact h
    | cons id ids ih =>
      intro acc h
      rw [List.foldl_cons]
      exact ih _ (hin _ _ h)
  exact hout state_set [] (by simp)

theorem extract_symbols_nodup (nfaNodes : List (Nat × Node)) (state_set : List Nat) :
    (extract_symbols nfaNodes state_set).Nodup :=
  (extract_symbols_sorted nfaNodes state_set).nodup

theorem foldSymbols_inv (nfaNodes : List (Nat × Node)) (current_set : List Nat)
    (cur : Nat) :
    ∀ (syms done : List Char) (st : DSt), (done ++ syms).Nodup →
      FInv nfaNodes cur done st →
      FInv nfaNodes cur (done ++ syms)
        (syms.foldl (processSymbol nfaNodes current_set cur) st) := by
  intro syms
  induction syms with
  | nil =>
    intro done st _ hF
    rw [List.foldl_nil, List.append_nil]
    exact hF
  | cons ch chs ih =>
    intro done st hnd hF
    rw [List.foldl_cons]
    have hch : ch ∉ done := by
      rcases List.nodup_append.mp hnd with ⟨_, _, hdisj⟩
      intro hc
      exact hdisj hc (List.mem_cons_self ch chs)
    have hnd2 : ((done ++ [ch]) ++ chs).Nodup := by
      rw [List.append_assoc]
      exact hnd
    have := ih (done ++ [ch]) (processSymbol nfaNodes current_set cur st ch) hnd2
      (processSymbol_inv nfaNodes current_set cur done st ch hF hch)
    rw [List.append_assoc] at this
    exact this

theorem DInv_to_FInv (nfaNodes : List (Nat × Node)) (st : DSt) (current_set : List Nat)
    (rest : List (List Nat)) (cid : Nat) (hD : DInv nfaNodes st)
    (hq : st.unmarked = current_set :: rest)
    (hcid : alookup st.dfa_states current_set = some cid) :
    FInv nfaNodes cid [] ⟨st.dfa_states, rest, st.nodes, st.counter, st.root_id⟩ := by
  have hcur_notin : current_set ∉ rest := by
    have := hD.queueNodup
    rw [hq] at this
    exact (List.nodup_cons.mp this).1
  refine ⟨hD.keysNodup, hD.valsNodup, hD.keysSorted, ?_, ?_, ?_, ?_, ?_, hD.statesExist,
    hD.nodesNodup, hD.counterBound, hD.countEq, hD.targetsExist, hD.rootExists, ?_⟩
  · have := hD.queueNodup
    rw [hq] at this
    exact (List.nodup_cons.mp this).2
  · intro s hs
    exact hD.queueKeys s (by rw [hq]; exact List.mem_cons_of_mem _ hs)
  · intro s hs id hid
    have hsq : s ∈ st.unmarked := by rw [hq]; exact List.mem_cons_of_mem _ hs
    refine ⟨?_, hD.queueClean s hsq id hid⟩
    have hne : s ≠ current_set := by
      intro hc
      rw [hc] at hs
      exact hcur_notin hs
    exact vals_nodup_ne hD.valsNodup hid hcid hne
  · intro id nd _ hnd
    exact hD.disjoint id nd hnd
  · intro nd hnd
    have hcl := hD.queueClean current_set (by rw [hq]; exact List.mem_cons_self _ _)
      cid hcid nd hnd
    rw [hcl]
    exact ⟨List.Pairwise.nil, by simp⟩
  · rcases hD.statesExist _ (alookup_mem hcid) with ⟨nd, hnd⟩
    exact hD.counterBound _ (alookup_mem hnd)

theorem FInv_to_DInv (nfaNodes : List (Nat × Node)) (cur : Nat) (done : List Char)
    (st : DSt) (hF : FInv nfaNodes cur done st) : DInv nfaNodes st := by
  refine ⟨hF.keysNodup, hF.valsNodup, hF.keysSorted, hF.queueNodup, hF.queueKeys, ?_, ?_,
    hF.statesExist, hF.nodesNodup, hF.counterBound, hF.countEq, hF.targetsExist,
    hF.rootExists⟩
  · intro s hs id hid nd hnd
    exact (hF.queueCleanF s hs id hid).2 nd hnd
  · intro id nd hnd
    by_cases hcur : id = cur
    · rw [hcur] at hnd
      exact (hF.currentOk nd hnd).1
    · exact hF.disjointOther id nd hcur hnd

theorem dfaLoopF_inv (nfaNodes : List (Nat × Node)) :
    ∀ (fuel : Nat) (st st' : DSt), DInv nfaNodes st →
      dfaLoopF nfaNodes fuel st = some st' → DInv nfaNodes st' := by
  intro fuel
  induction fuel with
  | zero =>
    intro st st' hD h
    rw [dfaLoopF] at h
    rcases hq : st.unmarked with _ | ⟨current_set, rest⟩
    · rw [hq] at h
      injection h with h
      rw [← h]
      exact hD
    · rw [hq] at h
      cases h
  | succ fuel ih =>
    intro st st' hD h
    rw [dfaLoopF] at h
    rcases hq : st.unmarked with _ | ⟨current_set, rest⟩
    · rw [hq] at h
      injection h with h
      rw [← h]
      exact hD
    · rw [hq] at h
      rcases hD.queueKeys current_set (by rw [hq]; exact List.mem_cons_self _ _)
        with ⟨cid, hcid⟩
      simp only [hcid, Option.getD_some] at h
      have hF0 := DInv_to_FInv nfaNodes st current_set rest cid hD hq hcid
      have hnd : (([] : List Char) ++ extract_symbols nfaNodes current_set).Nodup := by
        rw [List.nil_append]
        exact extract_symbols_nodup nfaNodes current_set
      have hF1 := foldSymbols_inv nfaNodes current_set cid
        (extract_symbols nfaNodes current_set) [] _ hnd hF0
      exact ih _ st' (FInv_to_DInv nfaNodes cid _ _ hF1) h

theorem dfaStart_inv (nfaNodes : List (Nat × Node)) (nfaRoot counter : Nat) :
    DInv nfaNodes (dfaStart nfaNodes nfaRoot counter) := by
  rw [dfaStart]
  simp only [create_dfa_state_eq2]
  refine ⟨?_, ?_, ?_, ?_, ?_, ?_, ?_, ?_, ?_, ?_, ?_, ?_, ?_⟩
  · simp
  · simp
  · intro p hp
    rcases List.mem_singleton.mp hp with h
    rw [h]
    refine epsilon_closure_sorted nfaNodes [nfaRoot] ?_
    simp
  · simp
  · intro s hs
    rcases List.mem_singleton.mp hs with h
    rw [h, alookup_cons, if_pos rfl]
    exact ⟨counter + 2, rfl⟩
  · intro s hs id hid nd hnd
    rcases List.mem_singleton.mp hs with h
    rw [h, alookup_cons, if_pos rfl] at hid
    injection hid with hid
    rw [← hid] at hnd
    rw [alookup_cons, if_pos rfl] at hnd
    injection hnd with hnd
    rw [← hnd, cdsNode_edges]
  · intro id nd hnd
    rw [alookup_cons] at hnd
    split at hnd
    · injection hnd with hnd
      rw [← hnd, cdsNode_edges]
      exact List.Pairwise.nil
    · rw [alookup_cons] at hnd
      split at hnd
      · injection hnd with hnd
        rw [← hnd]
        exact List.Pairwise.nil
      · cases hnd
  · intro p hp
    rcases List.mem_singleton.mp hp with h
    rw [h, alookup_cons, if_pos rfl]
    exact ⟨_, rfl⟩
  · simp
  · intro p hp
    rcases List.mem_cons.mp hp with h | h
    · rw [h]
    · rcases List.mem_singleton.mp h with h2
      rw [h2]
      show counter + 1 ≤ counter + 1 + 1
      omega
  · simp
  · intro p hp e he
    rcases List.mem_cons.mp hp with h | h
    · rw [h] at he
      rw [show ((counter + 1 + 1, cdsNode nfaNodes (epsilon_closure nfaNodes [nfaRoot])
        (counter + 1)) : Nat × Node).2 = cdsNode nfaNodes
        (epsilon_closure nfaNodes [nfaRoot]) (counter + 1) from rfl, cdsNode_edges] at he
      simp at he
    · rcases List.mem_singleton.mp h with h2
      rw [h2] at he
      simp at he
  · rw [alookup_cons, if_pos rfl]
    exact ⟨_, rfl⟩

theorem construct_DInv (nfaNodes : List (Nat × Node)) (nfaRoot counter : Nat) :
    DInv nfaNodes (Dfa.construct nfaNodes nfaRoot counter) :=
  dfaLoopF_inv nfaNodes (dfaFuel nfaNodes) (dfaStart nfaNodes nfaRoot counter) _
    (dfaStart_inv nfaNodes nfaRoot counter)
    (dfaLoopF_eq_some nfaNodes nfaRoot counter)

end DInvLemmas

section PrLemmas

theorem aupdateOpt_some {α β : Type} [DecidableEq α] {l : List (α × β)} {a : α}
    (f : β → β) {v : β} (h : alookup l a = some v) :
    aupdateOpt l a f = some (aupdate l a f) := by
  rw [aupdateOpt, h]

theorem prLoopF_step (fuel : Nat) (st : Gr) (c : Char) (cs : List Char) (name : String)
    (bs : Nat) (stack alts : List Nat) (endid : Nat) (me : Bool) :
    prLoopF (fuel + 1) st (c :: cs) name bs stack alts endid me =
      prStep (prLoopF fuel) st c cs name bs stack alts endid me := rfl

theorem prLoopF_done (fuel : Nat) (st : Gr) (name : String) (bs endid : Nat)
    (stack : List Nat) (me : Bool) :
    prLoopF fuel st [] name bs stack [] endid me = some (st, endid) := by
  cases fuel <;> rfl

theorem prLoopF_lit_cons (fuel : Nat) (st : Gr) (c : Char) (cs : List Char) (name : String)
    (bs top endid : Nat) (stack1 alts : List Nat) (me : Bool)
    (h1 : c ≠ '|') (h2 : c ≠ '\\') (h3 : c ≠ '[') (h4 : c ≠ '(') (h5 : c ≠ '*')
    (h6 : c ≠ '+') (h7 : c ≠ '?') (hcs : cs ≠ []) :
    prLoopF (fuel + 1) st (c :: cs) name bs (top :: stack1) alts endid me =
      match aupdateOpt ((st.counter + 1, ⟨String.singleton c, [], st.counter + 1, false⟩)
          :: st.nodes) top (fun nd => nd.pushEdge (st.counter + 1) [c]) with
      | none => none
      | some nodes2 =>
        prLoopF fuel ⟨nodes2, st.counter + 1⟩ cs name bs
          ((st.counter + 1) :: top :: stack1) alts endid me := by
  rw [prLoopF_step, prStep.eq_def]
  rw [if_neg h1]
  rw [if_neg h2]
  rw [if_neg h3]
  rw [if_neg h4]
  rw [if_neg h5]
  rw [if_neg h6]
  rw [if_neg h7]
  rcases hup : aupdateOpt ((st.counter + 1, ⟨String.singleton c, [], st.counter + 1, false⟩)
      :: st.nodes) top (fun nd => nd.pushEdge (st.counter + 1) [c]) with _ | nodes2
  · simp only [mkNode, hup]
  · simp only [mkNode, hup]
    exact if_neg (fun hh : cs = [] ∧ me = true => absurd hh.1 hcs)

theorem prLoopF_lit_last (fuel : Nat) (st : Gr) (c : Char) (name : String)
    (bs top endid : Nat) (stack1 alts : List Nat)
    (h1 : c ≠ '|') (h2 : c ≠ '\\') (h3 : c ≠ '[') (h4 : c ≠ '(') (h5 : c ≠ '*')
    (h6 : c ≠ '+') (h7 : c ≠ '?') :
    prLoopF (fuel + 1) st [c] name bs (top :: stack1) alts endid true =
      match aupdateOpt ((st.counter + 1, ⟨String.singleton c, [], st.counter + 1, false⟩)
          :: st.nodes) top (fun nd => nd.pushEdge (st.counter + 1) [c]) with
      | none => none
      | some nodes2 =>
        prLoopF fuel ⟨aupdate nodes2 (st.counter + 1)
            (fun nd => (nd.setTerminalB true).setNameS name), st.counter + 1⟩ [] name bs
          ((st.counter + 1) :: top :: stack1) alts (st.counter + 1) true := by
  rw [prLoopF_step, prStep.eq_def]
  rw [if_neg h1]
  rw [if_neg h2]
  rw [if_neg h3]
  rw [if_neg h4]
  rw [if_neg h5]
  rw [if_neg h6]
  rw [if_neg h7]
  rcases hup : aupdateOpt ((st.counter + 1, ⟨String.singleton c, [], st.counter + 1, false⟩)
      :: st.nodes) top (fun nd => nd.pushEdge (st.counter + 1) [c]) with _ | nodes2
  · simp only [mkNode, hup]
  · simp only [mkNode, hup]
    rw [if_pos ⟨by trivial, by trivial⟩]

theorem prLoopF_literal (name : String) (bs : Nat) :
    ∀ (cs : List Char) (c : Char) (fuel : Nat) (st : Gr) (top : Nat) (stack1 : List Nat)
      (endid : Nat) (v : Node),
      (∀ x ∈ c :: cs, x ≠ '|' ∧ x ≠ '\\' ∧ x ≠ '[' ∧ x ≠ '(' ∧ x ≠ '*' ∧ x ≠ '+' ∧
        x ≠ '?') →
      cs.length < fuel →
      alookup st.nodes top = some v →
      ∃ st2 exit nd,
        prLoopF fuel st (c :: cs) name bs (top :: stack1) [] endid true =
          some (st2, exit) ∧ alookup st2.nodes exit = some nd ∧ nd.terminal = true ∧
          nd.name = name := by
  intro cs
  induction cs with
  | nil =>
    intro c fuel st top stack1 endid v h hf hv
    obtain ⟨h1, h2, h3, h4, h5, h6, h7⟩ := h c (List.mem_cons_self c [])
    cases fuel with
    | zero => omega
    | succ fuel =>
      have hex : ∃ w, alookup ((st.counter + 1,
          (⟨String.singleton c, [], st.counter + 1, false⟩ : Node)) :: st.nodes) top
          = some w := by
        rw [alookup_cons]
        split
        · exact ⟨_, rfl⟩
        · exact ⟨v, hv⟩
      rcases hex with ⟨w, hw⟩
      have hup := aupdateOpt_some (fun nd => nd.pushEdge (st.counter + 1) [c]) hw
      rw [prLoopF_lit_last fuel st c name bs top endid stack1 [] h1 h2 h3 h4 h5 h6 h7]
      simp only [hup]
      rw [prLoopF_done]
      have hex2 : ∃ w2, alookup (aupdate ((st.counter + 1,
          (⟨String.singleton c, [], st.counter + 1, false⟩ : Node)) :: st.nodes) top
          (fun nd => nd.pushEdge (st.counter + 1) [c])) (st.counter + 1) = some w2 :=
        alookup_aupdate_exists ⟨_, by rw [alookup_cons, if_pos rfl]⟩
      rcases hex2 with ⟨w2, hw2⟩
      refine ⟨_, st.counter + 1, (w2.setTerminalB true).setNameS name, rfl, ?_, rfl, rfl⟩
      show alookup (aupdate (aupdate ((st.counter + 1,
          (⟨String.singleton c, [], st.counter + 1, false⟩ : Node)) :: st.nodes) top
          (fun nd => nd.pushEdge (st.counter + 1) [c])) (st.counter + 1)
          (fun nd => (nd.setTerminalB true).setNameS name)) (st.counter + 1) = _
      rw [alookup_aupdate_self, hw2]
      rfl
  | cons c2 cs2 ih =>
    intro c fuel st top stack1 endid v h hf hv
    obtain ⟨h1, h2, h3, h4, h5, h6, h7⟩ := h c (List.mem_cons_self _ _)
    cases fuel with
    | zero => omega
    | succ fuel =>
      rw [prLoopF_lit_cons fuel st c (c2 :: cs2) name bs top endid stack1 [] true
        h1 h2 h3 h4 h5 h6 h7 (by simp)]
      have hex : ∃ w, alookup ((st.counter + 1,
          (⟨String.singleton c, [], st.counter + 1, false⟩ : Node)) :: st.nodes) top
          = some w := by
        rw [alookup_cons]
        split
        · exact ⟨_, rfl⟩
        · exact ⟨v, hv⟩
      rcases hex with ⟨w, hw⟩
      have hup := aupdateOpt_some (fun nd => nd.pushEdge (st.counter + 1) [c]) hw
      simp only [hup]
      have hex2 : ∃ w2, alookup (aupdate ((st.counter + 1,
          (⟨String.singleton c, [], st.counter + 1, false⟩ : Node)) :: st.nodes) top
          (fun nd => nd.pushEdge (st.counter + 1) [c])) (st.counter + 1) = some w2 :=
        alookup_aupdate_exists ⟨_, by rw [alookup_cons, if_pos rfl]⟩
      rcases hex2 with ⟨w2, hw2⟩
      exact ih c2 fuel _ (st.counter + 1) (top :: stack1) endid w2
        (fun x hx => h x (List.mem_cons_of_mem c hx))
        (by rw [List.length_cons] at hf; omega) hw2

theorem prLoopF_dangling (name : String) (bs : Nat) :
    ∀ (cs : List Char),
      (∀ x ∈ cs, x ≠ '|' ∧ x ≠ '\\' ∧ x ≠ '[' ∧ x ≠ '(' ∧ x ≠ '*' ∧ x ≠ '+' ∧ x ≠ '?') →
    ∀ (fuel : Nat) (st : Gr) (top : Nat) (stack1 alts : List Nat) (endid : Nat)
      (me : Bool),
      prLoopF fuel st (cs ++ ['\\']) name bs (top :: stack1) alts endid me = none := by
  intro cs
  induction cs with
  | nil =>
    intro _ fuel st top stack1 alts endid me
    cases fuel with
    | zero => rfl
    | succ fuel => rfl
  | cons c cs2 ih =>
    intro h fuel st top stack1 alts endid me
    obtain ⟨h1, h2, h3, h4, h5, h6, h7⟩ := h c (List.mem_cons_self _ _)
    cases fuel with
    | zero => rfl
    | succ fuel =>
      rw [List.cons_append,
        prLoopF_lit_cons fuel st c (cs2 ++ ['\\']) name bs top endid stack1 alts me
          h1 h2 h3 h4 h5 h6 h7 (by simp)]
      rcases hup : aupdateOpt ((st.counter + 1,
          (⟨String.singleton c, [], st.counter + 1, false⟩ : Node)) :: st.nodes) top
          (fun nd => nd.pushEdge (st.counter + 1) [c]) with _ | nodes2
      · simp only [hup]
      · simp only [hup]
        exact ih (fun x hx => h x (List.mem_cons_of_mem c hx)) fuel
          ⟨nodes2, st.counter + 1⟩ (st.counter + 1) (top :: stack1) alts endid me

end PrLemmas

section MiscLemmas

theorem edgesDisjoint_filter_le_one (c : Char) :
    ∀ (es : List Edge), edgesDisjoint es →
      ((es.filter fun e => decide (c ∈ (e : Edge).path)).length ≤ 1) := by
  intro es
  induction es with
  | nil =>
    intro _
    simp
  | cons e es ih =>
    intro hd
    by_cases hc : c ∈ (e : Edge).path
    · have h1 : ((e :: es).filter fun x => decide (c ∈ (x : Edge).path)) =
          e :: (es.filter fun x => decide (c ∈ (x : Edge).path)) := by
        simp [List.filter_cons, hc]
      have h2 : (es.filter fun x => decide (c ∈ (x : Edge).path)) = [] := by
        rw [List.filter_eq_nil_iff]
        intro e2 he2
        simp only [decide_eq_true_eq]
        exact (List.pairwise_cons.mp hd).1 e2 he2 c hc
      rw [h1, h2]
      simp
    · have h1 : ((e :: es).filter fun x => decide (c ∈ (x : Edge).path)) =
          es.filter fun x => decide (c ∈ (x : Edge).path) := by
        simp [List.filter_cons, hc]
      rw [h1]
      exact ih (List.pairwise_cons.mp hd).2

theorem dfaLoopF_empty (nfaNodes : List (Nat × Node)) :
    ∀ (fuel : Nat) (st st' : DSt), dfaLoopF nfaNodes fuel st = some st' →
      st'.unmarked = [] := by
  intro fuel
  induction fuel with
  | zero =>
    intro st st' h
    rw [dfaLoopF] at h
    rcases hq : st.unmarked with _ | ⟨cur, rest⟩
    · rw [hq] at h
      injection h with h
      rw [← h]
      exact hq
    · rw [hq] at h
      cases h
  | succ fuel ih =>
    intro st st' h
    rw [dfaLoopF] at h
    rcases hq : st.unmarked with _ | ⟨cur, rest⟩
    · rw [hq] at h
      injection h with h
      rw [← h]
      exact hq
    · rw [hq] at h
      exact ih _ st' h

theorem c1nfa_eq :
    Nfa.construct [("ab", "ID"), ("abc", "KEYWORD")] = some ⟨c1nfaNodes, 6⟩ := by decide

theorem c1dfa_eq : Dfa.construct c1nfaNodes 1 6 = c1dfaSt := by decide

theorem c1lex_eq : Dfa.lex c1dfaNodes 8 "abcx".data = some [("KEYWORD", "abc")] := by
  decide

end MiscLemmas

section Claims

/-- Claim C1: maximal-munch scanning. For the pipeline built from the rules
`("ab", "ID")` and `("abc", "KEYWORD")`, lexing `"abcx"` emits exactly
`("KEYWORD", "abc")` and never `("ID", "ab")`; and in general, during one
inner walk of `Dfa::lex`, the recorded accepting checkpoint always dominates
every earlier one: starting from checkpoint end `e0`, the walk returns a
checkpoint whose end is at least `e0`, because each newly entered terminal
state overwrites the previous checkpoint with a strictly later position. -/
theorem c1_maximal_munch :
    oat_lex [("ab", "ID"), ("abc", "KEYWORD")] "abcx" = some [("KEYWORD", "abc")] ∧
    (∀ (dfaNodes : List (Nat × Node)) (rest : List Char) (j cur e0 : Nat) (n0 : String)
      (r : Option (Nat × String)), e0 ≤ j + 1 →
      lexInner dfaNodes rest j cur (some (e0, n0)) = some r →
      ∃ e n, r = some (e, n) ∧ e0 ≤ e) := by
  constructor
  · have h1 : oat_lex [("ab", "ID"), ("abc", "KEYWORD")] "abcx" =
        Dfa.lex (Dfa.construct c1nfaNodes 1 6).nodes
          (Dfa.construct c1nfaNodes 1 6).root_id "abcx".data := by
      simp only [oat_lex, c1nfa_eq]
    rw [h1, c1dfa_eq]
    exact c1lex_eq
  · intro dfaNodes rest j cur e0 n0 r h1 h2
    exact lexInner_keep dfaNodes rest j cur e0 n0 r h1 h2

/-- Witness for C1 at a concrete input: the trivial empty walk keeps the
checkpoint `(1, "ID")`, whose end dominates the initial end `1`. -/
theorem c1_witness :
    (1 ≤ 0 + 1) ∧
    lexInner c1dfaNodes [] 0 8 (some (1, "ID")) = some (some (1, "ID")) ∧
    (∃ e n, (some (1, "ID") : Option (Nat × String)) = some (e, n) ∧ 1 ≤ e) :=
  ⟨by decide, rfl,
   c1_maximal_munch.2 c1dfaNodes [] 0 8 1 "ID" (some (1, "ID")) (by decide) rfl⟩

/-- Claim C2: the DFA node allocated by `Dfa::create_dfa_state` from a set `S`
of NFA state ids is prepended to the store; it is terminal iff some NFA state
in `S` resolves to a terminal node; and when `i ∈ S` resolves to a terminal
node `m` while every smaller member of `S` does not resolve to a terminal
node, the new node's name is `m`'s token name (the first terminal NFA state
encountered while iterating the set in ascending order). -/
theorem c2_terminal_name (nfaNodes : List (Nat × Node)) (S : List Nat)
    (nodes : List (Nat × Node)) (counter : Nat) (hs : S.Sorted (· < ·)) :
    (create_dfa_state nfaNodes S nodes counter).2.1 =
      (counter + 1, cdsNode nfaNodes S counter) :: nodes ∧
    ((cdsNode nfaNodes S counter).terminal = true ↔
      ∃ i ∈ S, ∃ m, alookup nfaNodes i = some m ∧ (m : Node).terminal = true) ∧
    (∀ i ∈ S, ∀ m, alookup nfaNodes i = some m → (m : Node).terminal = true →
      (∀ j ∈ S, j < i → (alookup nfaNodes j).map Node.terminal ≠ some true) →
      (cdsNode nfaNodes S counter).name = (m : Node).name) := by
  refine ⟨rfl, ?_, ?_⟩
  · show (S.any fun id => match alookup nfaNodes id with
        | some nd => nd.terminal
        | none => false) = true ↔ _
    exact any_terminal_iff nfaNodes S
  · intro i hi m hm ht hmin
    have hterm : (S.any fun id => match alookup nfaNodes id with
        | some nd => nd.terminal
        | none => false) = true :=
      (any_terminal_iff nfaNodes S).mpr ⟨i, hi, m, hm, ht⟩
    show (if (S.any fun id => match alookup nfaNodes id with
        | some nd => nd.terminal
        | none => false) = true
      then (S.filterMap fun id => match alookup nfaNodes id with
        | some nd => if nd.terminal = true then some nd.name else none
        | none => none).headD "<>"
      else "<>") = (m : Node).name
    rw [if_pos hterm]
    refine filterMap_headD_min S hs i hi (m : Node).name ?_ ?_ "<>"
    · show (match alookup nfaNodes i with
        | some nd => if nd.terminal = true then some nd.name else none
        | none => none) = some (m : Node).name
      simp only [hm]
      rw [if_pos ht]
    · intro j hj hlt
      show (match alookup nfaNodes j with
        | some nd => if nd.terminal = true then some nd.name else none
        | none => none) = none
      rcases hj2 : alookup nfaNodes j with _ | m2
      · simp only [hj2]
      · have hnt : ¬ (m2 : Node).terminal = true := by
          intro hc
          apply hmin j hj hlt
          rw [hj2]
          show some (Node.terminal m2) = some true
          rw [hc]
        simp only [hj2, if_neg hnt]

/-- Witness for C2: for the set `{3, 5}` over the example NFA store, the
created node is terminal and named after node 3, the smallest terminal id. -/
theorem c2_witness :
    ([3, 5] : List Nat).Sorted (· < ·) ∧
    (cdsNode c1nfaNodes [3, 5] 0).name = "ID" ∧
    (cdsNode c1nfaNodes [3, 5] 0).terminal = true := by
  refine ⟨by decide, ?_, ?_⟩
  · exact (c2_terminal_name c1nfaNodes [3, 5] [] 0 (by decide)).2.2 3 (by decide)
      ⟨"ID", [], 3, true⟩ (by decide) rfl (by decide)
  · exact (c2_terminal_name c1nfaNodes [3, 5] [] 0 (by decide)).2.1.mpr
      ⟨3, by decide, ⟨"ID", [], 3, true⟩, by decide, rfl⟩

/-- Claim C3: post-construction determinism. Every node stored in the DFA
produced by `Dfa::construct_dfa` has, for every input character, at most one
outgoing edge whose label contains that character. -/
theorem c3_determinism (nfaNodes : List (Nat × Node)) (nfaRoot counter id : Nat)
    (nd : Node) (c : Char)
    (h : alookup (Dfa.construct nfaNodes nfaRoot counter).nodes id = some nd) :
    ((nd : Node).outgoing_edges.filter fun e => decide (c ∈ (e : Edge).path)).length ≤ 1 :=
  edgesDisjoint_filter_le_one c nd.outgoing_edges
    ((construct_DInv nfaNodes nfaRoot counter).disjoint id nd h)

/-- Witness for C3: node 9 of the example DFA has exactly one edge labelled
with the character `b`. -/
theorem c3_witness :
    alookup (Dfa.construct c1nfaNodes 1 6).nodes 9 =
      some ⟨"<>", [⟨10, ['b']⟩], 9, false⟩ ∧
    (((⟨"<>", [⟨10, ['b']⟩], 9, false⟩ : Node)).outgoing_edges.filter
      fun e => decide ('b' ∈ (e : Edge).path)).length ≤ 1 := by
  have hh : alookup (Dfa.construct c1nfaNodes 1 6).nodes 9 =
      some ⟨"<>", [⟨10, ['b']⟩], 9, false⟩ := by
    rw [c1dfa_eq]
    decide
  exact ⟨hh, c3_determinism c1nfaNodes 1 6 9 _ 'b' hh⟩

/-- Claim C4: subset-construction deduplication. In the DFA produced by
`Dfa::construct_dfa`, no two registered states share the same set of NFA
state ids (the key map is duplicate-free), no two sets share a DFA node id,
and exactly one node exists per registered set plus the `"DFA"` root — so
`create_dfa_state` ran at most once per epsilon-closed set. -/
theorem c4_dedup (nfaNodes : List (Nat × Node)) (nfaRoot counter : Nat) :
    ((Dfa.construct nfaNodes nfaRoot counter).dfa_states.map Prod.fst).Nodup ∧
    ((Dfa.construct nfaNodes nfaRoot counter).dfa_states.map Prod.snd).Nodup ∧
    (Dfa.construct nfaNodes nfaRoot counter).nodes.length =
      (Dfa.construct nfaNodes nfaRoot counter).dfa_states.length + 1 := by
  have hD := construct_DInv nfaNodes nfaRoot counter
  exact ⟨hD.keysNodup, hD.valsNodup, hD.countEq⟩

/-- Claim C5 (amended): terminal marking in the regex compiler. For every
pattern consisting of ordinary literal characters (none of the metacharacters
`| \ [ ( * + ?`), compiling with `mark_ending` set returns an exit node that
is marked terminal and carries the rule's token name. (The original claim —
that this holds for *any* final construct — is refuted by
`c5_counterexample`: a trailing `?` marks nothing.) -/
theorem c5_terminal_marking (st : Gr) (name : String) (start : Nat) (v : Node)
    (c : Char) (cs : List Char)
    (hplain : ∀ x ∈ c :: cs, x ≠ '|' ∧ x ≠ '\\' ∧ x ≠ '[' ∧ x ≠ '(' ∧ x ≠ '*' ∧
      x ≠ '+' ∧ x ≠ '?')
    (hv : alookup st.nodes start = some v) :
    ∃ st2 exit nd, parse_regex st (c :: cs) name start true = some (st2, exit) ∧
      alookup st2.nodes exit = some nd ∧ (nd : Node).terminal = true ∧
      (nd : Node).name = name := by
  rw [parse_regex]
  exact prLoopF_literal name start cs c (c :: cs).length st start [] start v hplain
    (by rw [List.length_cons]; omega) hv

/-- Witness for C5: compiling the literal pattern `ab` against a fresh root
yields a terminal exit node named after the rule. -/
theorem c5_witness :
    (∀ x ∈ (['a', 'b'] : List Char), x ≠ '|' ∧ x ≠ '\\' ∧ x ≠ '[' ∧ x ≠ '(' ∧
      x ≠ '*' ∧ x ≠ '+' ∧ x ≠ '?') ∧
    alookup nfaNew.nodes 1 = some ⟨"NFA", [], 1, false⟩ ∧
    (∃ st2 exit nd, parse_regex nfaNew ['a', 'b'] "T" 1 true = some (st2, exit) ∧
      alookup st2.nodes exit = some nd ∧ (nd : Node).terminal = true ∧
      (nd : Node).name = "T") :=
  ⟨by decide, by decide,
   c5_terminal_marking nfaNew "T" 1 ⟨"NFA", [], 1, false⟩ 'a' ['b'] (by decide) (by decide)⟩

/-- Counterexample to the original C5: compiling `a?` with `mark_ending` set
succeeds and returns the start node as exit, which is neither terminal nor
renamed — the `?` branch of `Nfa::parse_regex` performs no terminal marking
and never updates the returned exit id. -/
theorem c5_counterexample :
    (parse_regex nfaNew ['a', '?'] "TOK" 1 true).map
      (fun r => (r.2, (alookup r.1.nodes r.2).map (fun nd => (nd.terminal, nd.name)))) =
      some (1, some (false, "NFA")) := by decide

/-- Claim C6 (amended): the skip rule. Rules whose token name is `";"` are
skipped outright by `Nfa::construct` (compiling nothing for them), and
`Dfa::lex` never emits a token named `";"`. (The original claim — that the
`";"` rule's pattern is recognized via an accepting state and checkpoint — is
refuted by `c6_counterexample`: no automaton states exist for such a rule.) -/
theorem c6_skip_rule :
    (∀ (root : Nat) (kw : String) (rest : List (String × String)) (st : Gr),
      constructKeywords root ((kw, ";") :: rest) st = constructKeywords root rest st) ∧
    (∀ (dfaNodes : List (Nat × Node)) (root : Nat) (input : List Char)
      (res : List (String × String)), Dfa.lex dfaNodes root input = some res →
      ∀ p ∈ res, (p : String × String).1 ≠ ";") := by
  constructor
  · intro root kw rest st
    rw [constructKeywords]
    rw [if_pos rfl]
  · intro dfaNodes root input res h p hp
    rcases lexOuterF_no_semi dfaNodes root input input.length 0 [] res h p hp with h1 | h1
    · exact absurd h1 (List.not_mem_nil p)
    · exact h1

/-- Witness for C6: a `";"`-named rule is skipped by the rule loop, and the
token emitted for `"abcx"` is not named `";"`. -/
theorem c6_witness :
    constructKeywords 1 [("x", ";")] nfaNew = constructKeywords 1 [] nfaNew ∧
    (("KEYWORD", "abc") ∈ [(("KEYWORD" : String), ("abc" : String))] ∧
      (("KEYWORD", "abc") : String × String).1 ≠ ";") :=
  ⟨c6_skip_rule.1 1 "x" [] nfaNew,
   ⟨by decide,
    c6_skip_rule.2 c1dfaNodes 8 "abcx".data [("KEYWORD", "abc")] c1lex_eq
      ("KEYWORD", "abc") (by decide)⟩⟩

/-- Counterexample to the original C6: adding the whitespace rule
`(" ", ";")` leaves the constructed NFA exactly as without it, and scanning a
space records no checkpoint at all (`some none`), so the skip rule's pattern
is never "recognized" via an accepting state — the rule is simply never
compiled. -/
theorem c6_counterexample :
    Nfa.construct [("ab", "ID"), ("abc", "KEYWORD"), (" ", ";")] =
      Nfa.construct [("ab", "ID"), ("abc", "KEYWORD")] ∧
    Nfa.construct [("ab", "ID"), ("abc", "KEYWORD"), (" ", ";")] =
      some ⟨c1nfaNodes, 6⟩ ∧
    lexInner c1dfaNodes [' '] 0 8 none = some none :=
  ⟨by decide, by decide, by decide⟩

/-- Claim C7 (amended): malformed patterns. A pattern made of ordinary
characters followed by a dangling escape fails to compile (the `unwrap` on
the peeked next character panics), and a leading repetition operator `*`, `+`
or `?` fails immediately (the `unwrap` on the popped-empty stack panics). (The
original claim also asserted failure for unterminated brackets and groups,
which is refuted by `c7_counterexample`.) -/
theorem c7_malformed_failure :
    (∀ (st : Gr) (name : String) (start : Nat) (me : Bool) (cs : List Char),
      (∀ x ∈ cs, x ≠ '|' ∧ x ≠ '\\' ∧ x ≠ '[' ∧ x ≠ '(' ∧ x ≠ '*' ∧ x ≠ '+' ∧
        x ≠ '?') →
      parse_regex st (cs ++ ['\\']) name start me = none) ∧
    (∀ (st : Gr) (name : String) (start : Nat) (me : Bool) (rest : List Char),
      parse_regex st ('*' :: rest) name start me = none ∧
      parse_regex st ('+' :: rest) name start me = none ∧
      parse_regex st ('?' :: rest) name start me = none) := by
  constructor
  · intro st name start me cs hplain
    rw [parse_regex]
    exact prLoopF_dangling name start cs hplain (cs ++ ['\\']).length st start [] []
      start me
  · intro st name start me rest
    exact ⟨rfl, rfl, rfl⟩

/-- Witness for C7: the pattern `a\` (dangling escape) fails to compile. -/
theorem c7_witness :
    (∀ x ∈ (['a'] : List Char), x ≠ '|' ∧ x ≠ '\\' ∧ x ≠ '[' ∧ x ≠ '(' ∧ x ≠ '*' ∧
      x ≠ '+' ∧ x ≠ '?') ∧
    parse_regex nfaNew ['a', '\\'] "T" 1 true = none :=
  ⟨by decide, c7_malformed_failure.1 nfaNew "T" 1 true ['a'] (by decide)⟩

/-- Counterexample to the original C7: the unterminated bracket pattern `[ab`
and the unterminated group pattern `(ab` both compile successfully — the
character-collecting loops simply run to the end of the string; no panic
occurs. -/
theorem c7_counterexample :
    (parse_regex nfaNew ['[', 'a', 'b'] "T" 1 true).isSome = true ∧
    (parse_regex nfaNew ['(', 'a', 'b'] "T" 1 true).isSome = true :=
  ⟨by decide, by decide⟩

/-- Claim C8: unmatched-input policy. When the inner DFA walk records no
checkpoint, the outer loop of `Dfa::lex` advances the cursor by exactly one
character and emits nothing; and for the DFA produced by the pipeline's
construction, scanning never fails — `Dfa::lex` returns a token list for
every input. -/
theorem c8_unmatched_policy :
    (∀ (dfaNodes : List (Nat × Node)) (root : Nat) (chars : List Char)
      (fuel index : Nat) (tokens : List (String × String)), index < chars.length →
      lexInner dfaNodes (chars.drop index) index root none = some none →
      lexOuterF dfaNodes root chars (fuel + 1) index tokens =
        lexOuterF dfaNodes root chars fuel (index + 1) tokens) ∧
    (∀ (nfaNodes : List (Nat × Node)) (nfaRoot counter : Nat) (input : List Char),
      (Dfa.lex (Dfa.construct nfaNodes nfaRoot counter).nodes
        (Dfa.construct nfaNodes nfaRoot counter).root_id input).isSome = true) := by
  constructor
  · intro dfaNodes root chars fuel index tokens h1 h2
    exact lexOuterF_skip dfaNodes root chars fuel index tokens h1 h2
  · intro nfaNodes nfaRoot counter input
    have hD := construct_DInv nfaNodes nfaRoot counter
    exact lexOuterF_isSome (Dfa.construct nfaNodes nfaRoot counter).nodes
      (Dfa.construct nfaNodes nfaRoot counter).root_id input hD.rootExists
      hD.targetsExist input.length 0 [] (by omega)

/-- Witness for C8: scanning `" a"` from the example DFA root records no
checkpoint on the leading space, and the outer loop steps the cursor from 0
to 1 without emitting. -/
theorem c8_witness :
    (0 < ([' ', 'a'] : List Char).length) ∧
    lexInner c1dfaNodes (([' ', 'a'] : List Char).drop 0) 0 8 none = some none ∧
    lexOuterF c1dfaNodes 8 [' ', 'a'] 1 0 [] = lexOuterF c1dfaNodes 8 [' ', 'a'] 0 1 [] :=
  ⟨by decide, by decide,
   c8_unmatched_policy.1 c1dfaNodes 8 [' ', 'a'] 0 0 [] (by decide) (by decide)⟩

/-- Claim C9: termination. The worklist loop of `Dfa::construct_dfa` finishes
within the fuel bound derived from the finitely many NFA-state subsets (the
fuel-exhaustion branch is unreachable) and ends with an empty queue; and the
outer loop of `Dfa::lex` is insensitive to any fuel at least the remaining
input length, because the cursor strictly increases every iteration. -/
theorem c9_termination :
    (∀ (nfaNodes : List (Nat × Node)) (nfaRoot counter : Nat),
      dfaLoopF nfaNodes (dfaFuel nfaNodes) (dfaStart nfaNodes nfaRoot counter) =
        some (Dfa.construct nfaNodes nfaRoot counter) ∧
      (Dfa.construct nfaNodes nfaRoot counter).unmarked = []) ∧
    (∀ (dfaNodes : List (Nat × Node)) (root : Nat) (chars : List Char)
      (fuel index : Nat) (tokens : List (String × String)),
      chars.length - index ≤ fuel →
      lexOuterF dfaNodes root chars fuel index tokens =
        lexOuterF dfaNodes root chars (chars.length - index) index tokens) := by
  constructor
  · intro nfaNodes nfaRoot counter
    refine ⟨dfaLoopF_eq_some nfaNodes nfaRoot counter, ?_⟩
    exact dfaLoopF_empty nfaNodes (dfaFuel nfaNodes) _ _
      (dfaLoopF_eq_some nfaNodes nfaRoot counter)
  · intro dfaNodes root chars fuel index tokens h
    exact lexOuterF_stable dfaNodes root chars fuel index tokens h

/-- Witness for C9: scanning `"ab"` with surplus fuel 5 agrees with scanning
at the exact remaining length 2. -/
theorem c9_witness :
    ("ab".data.length - 0 ≤ 5) ∧
    lexOuterF c1dfaNodes 8 "ab".data 5 0 [] =
      lexOuterF c1dfaNodes 8 "ab".data ("ab".data.length - 0) 0 [] :=
  ⟨by decide, c9_termination.2 c1dfaNodes 8 "ab".data 5 0 [] (by decide)⟩

/-- Claim C10: `Dfa::epsilon_closure` is extensive (the input set is contained
in its closure), sound for epsilon reachability (every member of the closure
is reachable from the set along `"<λ>"`-labelled edges alone), and
idempotent. -/
theorem c10_epsilon_closure (nfaNodes : List (Nat × Node)) (s : List Nat) :
    (∀ a ∈ s, a ∈ epsilon_closure nfaNodes s) ∧
    (∀ a ∈ epsilon_closure nfaNodes s, EpsReach nfaNodes s a) ∧
    epsilon_closure nfaNodes (epsilon_closure nfaNodes s) = epsilon_closure nfaNodes s :=
  ⟨epsilon_closure_sub nfaNodes s, epsilon_closure_reach nfaNodes s,
   epsilon_closure_idem nfaNodes s⟩

/-- Witness for C10 at the example NFA and the root set. -/
theorem c10_witness :
    (1 ∈ ([1] : List Nat)) ∧ 1 ∈ epsilon_closure c1nfaNodes [1] ∧
    epsilon_closure c1nfaNodes (epsilon_closure c1nfaNodes [1]) =
      epsilon_closure c1nfaNodes [1] :=
  ⟨by decide, (c10_epsilon_closure c1nfaNodes [1]).1 1 (by decide),
   (c10_epsilon_closure c1nfaNodes [1]).2.2⟩

end Claims

end Lex4Oat
